import Mathlib

/-!
Verification of the herzog-drei unit / base / pathfinding subsystem.

Conventions of the embedding:
* Go `float32` quantities are modelled as exact rationals (`ℚ`); the spec's
  cost model (1.0 per cardinal step, 1.41 per diagonal step) is likewise
  exact, so g-scores and heuristic values of the pathfinder are kept in `ℕ`
  scaled by 100 (cardinal step = 100, diagonal step = 141, heuristic
  `max + 0.41 * min` becomes `100 * max + 41 * min`).  Scaling by 100 is an
  order-isomorphism, so every comparison performed by the algorithm is
  unchanged.
* Go slices are modelled as `List`, Go maps as association lists
  (first-match lookup, in-place replace on update).
* Go pointers into the unit collection (`Target *Unit`) are modelled as an
  index into the collection.
* Fallible operations returning `nil` are modelled with `Option`.
-/

namespace HerzogDrei

/-- `Team` represents which side a unit belongs to (pkg/unit/unit.go). -/
inductive Team where
  | player
  | enemy
deriving DecidableEq, Repr

/-- `UnitType` identifies the kind of unit (pkg/unit/unit.go). -/
inductive UnitType where
  | infantry
  | tank
  | motorcycle
  | sam
  | boat
  | supply
deriving DecidableEq, Repr

/-- `State` represents what the unit is currently doing (pkg/unit/unit.go). -/
inductive State where
  | idle
  | moving
  | attacking
  | dead
  | capturing
  | beingCarried
deriving DecidableEq, Repr

/-- `Order` represents the unit's assigned behavior (pkg/unit/unit.go). -/
inductive Order where
  | none
  | attackHQ
  | attackNearest
  | captureOutpost
  | defendPosition
  | patrolArea
deriving DecidableEq, Repr

/-- A raylib `Vector3` with exact rational components. -/
structure Vec3 where
  x : ℚ
  y : ℚ
  z : ℚ
deriving DecidableEq, Repr

/-- `Config` holds unit configuration values (pkg/unit/unit.go). -/
structure Config where
  type : UnitType
  speed : ℚ
  turnSpeed : ℚ
  canTraverseWater : Bool
  attackRange : ℚ
  attackDamage : ℚ
  attackRate : ℚ
  canAttackAir : Bool
  canAttackGround : Bool
  maxHealth : ℚ
  armor : ℚ
  canCapture : Bool
  cost : ℤ
deriving DecidableEq, Repr

/-- `GetConfig` returns the configuration for a unit type
(pkg/unit/types.go). -/
def GetConfig : UnitType → Config
  | .infantry =>
      { type := .infantry, speed := 2.0, turnSpeed := 4.0,
        canTraverseWater := false, attackRange := 3.0, attackDamage := 5.0,
        attackRate := 1.5, canAttackAir := false, canAttackGround := true,
        maxHealth := 30.0, armor := 0.0, canCapture := true, cost := 100 }
  | .tank =>
      { type := .tank, speed := 3.0, turnSpeed := 2.0,
        canTraverseWater := false, attackRange := 6.0, attackDamage := 20.0,
        attackRate := 0.8, canAttackAir := false, canAttackGround := true,
        maxHealth := 100.0, armor := 0.3, canCapture := false, cost := 400 }
  | .motorcycle =>
      { type := .motorcycle, speed := 6.0, turnSpeed := 5.0,
        canTraverseWater := false, attackRange := 4.0, attackDamage := 8.0,
        attackRate := 2.0, canAttackAir := false, canAttackGround := true,
        maxHealth := 40.0, armor := 0.0, canCapture := false, cost := 200 }
  | .sam =>
      { type := .sam, speed := 2.5, turnSpeed := 3.0,
        canTraverseWater := false, attackRange := 8.0, attackDamage := 25.0,
        attackRate := 1.0, canAttackAir := true, canAttackGround := false,
        maxHealth := 50.0, armor := 0.1, canCapture := false, cost := 350 }
  | .boat =>
      { type := .boat, speed := 4.0, turnSpeed := 2.5,
        canTraverseWater := true, attackRange := 5.0, attackDamage := 15.0,
        attackRate := 1.2, canAttackAir := false, canAttackGround := true,
        maxHealth := 60.0, armor := 0.2, canCapture := false, cost := 300 }
  | .supply =>
      { type := .supply, speed := 3.5, turnSpeed := 2.0,
        canTraverseWater := false, attackRange := 0.0, attackDamage := 0.0,
        attackRate := 0.0, canAttackAir := false, canAttackGround := false,
        maxHealth := 80.0, armor := 0.1, canCapture := false, cost := 250 }

/-- `Unit` represents a deployable combat unit (pkg/unit/unit.go).  The
`Target *Unit` pointer is modelled as an optional index into the manager's
collection. -/
structure Unit where
  id : ℕ
  config : Config
  team : Team
  position : Vec3
  velocity : Vec3
  rotation : ℚ
  state : State
  order : Order
  health : ℚ
  maxHealth : ℚ
  attackCooldown : ℚ
  target : Option ℕ
  objective : Vec3
  hasObjective : Bool
  path : List (ℚ × ℚ)
  pathIndex : ℕ
  orderTarget : Vec3
  patrolCenter : Vec3
  patrolRadius : ℚ
deriving DecidableEq, Repr

/-- `New` creates a new unit of the specified type (pkg/unit/unit.go). -/
def Unit.new (id : ℕ) (unitType : UnitType) (team : Team) (pos : Vec3) :
    Unit :=
  let cfg := GetConfig unitType
  { id := id, config := cfg, team := team, position := pos,
    velocity := ⟨0, 0, 0⟩, rotation := 0, state := .idle, order := .none,
    health := cfg.maxHealth, maxHealth := cfg.maxHealth,
    attackCooldown := 0, target := Option.none, objective := ⟨0, 0, 0⟩,
    hasObjective := false, path := [], pathIndex := 0,
    orderTarget := ⟨0, 0, 0⟩, patrolCenter := ⟨0, 0, 0⟩, patrolRadius := 0 }

/-- `TakeDamage` applies damage to the unit (pkg/unit/unit.go, lines
364-372): subtract `amount * (1 - armor)` from health; if the result is
`≤ 0`, clamp health to 0 and set the state to Dead. -/
def Unit.takeDamage (u : Unit) (amount : ℚ) : Unit :=
  let actualDamage := amount * (1 - u.config.armor)
  let h := u.health - actualDamage
  if h ≤ 0 then { u with health := 0, state := .dead }
  else { u with health := h }

/-- `Heal` restores health to the unit, clamping at `MaxHealth`
(pkg/unit/unit.go, lines 375-380). -/
def Unit.heal (u : Unit) (amount : ℚ) : Unit :=
  let h := u.health + amount
  if h > u.maxHealth then { u with health := u.maxHealth }
  else { u with health := h }

/-- `IsDead` (pkg/unit/unit.go). -/
def Unit.isDead (u : Unit) : Bool :=
  decide (u.health ≤ 0) || u.state == .dead

/-- The attack-cooldown fragment of `Unit.Update` (pkg/unit/unit.go, lines
147-150): the cooldown is decremented by `dt` only when it is strictly
positive; there is no clamping of the result. -/
def updateCooldownStep (cd dt : ℚ) : ℚ :=
  if cd > 0 then cd - dt else cd

/-- The attack-cooldown values reachable from a freshly created unit
(`AttackCooldown = 0`) for a unit whose config has attack rate `rate`,
under any interleaving of `Update` ticks with step `dt ∈ [0, D]`
(which apply `updateCooldownStep`, pkg/unit/unit.go lines 147-150; the
rest of `Update` never writes the cooldown) and attacks (both
`executeAttackOrder`, pkg/unit/unit.go lines 198-201, and the manager's
`updateCombat`, lines 141-144 of the manager file, fire only when the
cooldown is `≤ 0` and then reset it to `1 / attackRate`). -/
inductive CooldownReach (rate D : ℚ) : ℚ → Prop where
  | init : CooldownReach rate D 0
  | update (cd dt : ℚ) (h : CooldownReach rate D cd) (h0 : 0 ≤ dt)
      (h1 : dt ≤ D) : CooldownReach rate D (updateCooldownStep cd dt)
  | attack (cd : ℚ) (h : CooldownReach rate D cd) (hcd : cd ≤ 0) :
      CooldownReach rate D (1 / rate)

/-! ## Bases and economy (pkg/base) -/
/-- `Owner` represents who controls a base (base package). -/
inductive Owner where
  | neutral
  | player1
  | player2
deriving DecidableEq, Repr

/-- The base `Type` (HQ or Outpost); named `BaseType` here because `Type`
is reserved in Lean. -/
inductive BaseType where
  | hq
  | outpost
deriving DecidableEq, Repr

/-- The base package's `Config`; named `BaseConfig` here to distinguish it
from the unit package's `Config`. -/
structure BaseConfig where
  outpostIncomeRate : ℚ
  hqIncomeRate : ℚ
  captureTime : ℚ
  hqMaxHealth : ℚ
  outpostMaxHealth : ℚ
  spawnCooldown : ℚ
deriving DecidableEq, Repr

/-- `DefaultConfig` returns the default base configuration. -/
def DefaultBaseConfig : BaseConfig :=
  { outpostIncomeRate := 15.0, hqIncomeRate := 5.0, captureTime := 5.0,
    hqMaxHealth := 500.0, outpostMaxHealth := 200.0, spawnCooldown := 2.0 }

/-- `Base` represents a capturable structure on the map. -/
structure Base where
  id : ℤ
  type : BaseType
  position : Vec3
  owner : Owner
  captureProgress : ℚ
  capturingOwner : Owner
  health : ℚ
  maxHealth : ℚ
  incomeRate : ℚ
  accumulatedIncome : ℚ
  spawnPoint : Vec3
  spawnCooldown : ℚ
  spawnQueue : List UnitType
  occupyingInfantry : ℤ
  occupyingOwner : Owner
deriving DecidableEq, Repr

/-- `NewBase` creates a new base at the given position. -/
def Base.new (id : ℤ) (baseType : BaseType) (position : Vec3)
    (owner : Owner) (cfg : BaseConfig) : Base :=
  let maxHealth := if baseType = .hq then cfg.hqMaxHealth
    else cfg.outpostMaxHealth
  let incomeRate := if baseType = .hq then cfg.hqIncomeRate
    else cfg.outpostIncomeRate
  { id := id, type := baseType, position := position, owner := owner,
    captureProgress := 0, capturingOwner := .neutral, health := maxHealth,
    maxHealth := maxHealth, incomeRate := incomeRate,
    accumulatedIncome := 0,
    spawnPoint := ⟨position.x, 0, position.z + 2.0⟩, spawnCooldown := 0,
    spawnQueue := [], occupyingInfantry := 0, occupyingOwner := .neutral }

/-- `updateCapture` advances the capture state machine of a base for one
frame (base package, `updateCapture`). -/
def Base.updateCapture (b : Base) (dt : ℚ) (cfg : BaseConfig) : Base :=
  if b.type = .hq then b
  else if b.occupyingInfantry ≤ 0 then
    -- No infantry, capture progress decays
    (if b.captureProgress > 0 then
      let p := b.captureProgress - dt / cfg.captureTime
      if p < 0 then
        { b with captureProgress := 0, capturingOwner := .neutral }
      else { b with captureProgress := p }
    else b)
  else if b.occupyingOwner = b.owner then b
  else
    -- Enemy or neutral capturing; a new capturer resets progress first
    let b1 := if b.capturingOwner ≠ b.occupyingOwner then
        { b with capturingOwner := b.occupyingOwner, captureProgress := 0 }
      else b
    let captureSpeed := (b1.occupyingInfantry : ℚ) * dt / cfg.captureTime
    let p := b1.captureProgress + captureSpeed
    if p ≥ 1.0 then
      { b1 with
        owner := b1.capturingOwner,
        captureProgress := 0,
        capturingOwner := .neutral,
        occupyingInfantry := 0,
        occupyingOwner := .neutral }
    else { b1 with captureProgress := p }

/-- `Base.Update` advances a base for one frame: income accrual, capture
progress, spawn-cooldown decrement. -/
def Base.update (b : Base) (dt : ℚ) (cfg : BaseConfig) : Base :=
  let b1 := if b.owner ≠ Owner.neutral then
      { b with accumulatedIncome := b.accumulatedIncome + b.incomeRate * dt }
    else b
  let b2 := b1.updateCapture dt cfg
  if b2.spawnCooldown > 0 then { b2 with spawnCooldown := b2.spawnCooldown - dt }
  else b2

/-- `SetOccupyingInfantry` records the infantry occupying this base for the
capture mechanic (supplied externally each frame). -/
def Base.setOccupyingInfantry (b : Base) (count : ℤ) (owner : Owner) :
    Base :=
  { b with occupyingInfantry := count, occupyingOwner := owner }

/-- `QueueUnit` adds a unit to the spawn queue (no-op for neutral bases). -/
def Base.queueUnit (b : Base) (unitType : UnitType) : Base :=
  if b.owner = .neutral then b
  else { b with spawnQueue := b.spawnQueue ++ [unitType] }

/-- `TrySpawn` dequeues one queued unit type if the spawn cooldown has
elapsed, resetting the cooldown on success. -/
def Base.trySpawn (b : Base) (cfg : BaseConfig) : Option UnitType × Base :=
  match b.spawnQueue with
  | [] => (Option.none, b)
  | unitType :: rest =>
      if b.spawnCooldown > 0 then (Option.none, b)
      else (some unitType,
        { b with spawnQueue := rest, spawnCooldown := cfg.spawnCooldown })

/-- `CollectIncome` collects and resets accumulated income. -/
def Base.collectIncome (b : Base) : ℚ × Base :=
  (b.accumulatedIncome, { b with accumulatedIncome := 0 })

/-- One capture tick as exercised by the game loop: the external tracker
supplies the occupying infantry (`SetOccupyingInfantry`) and then the base
is updated (`Base.Update`). -/
def captureTick (cfg : BaseConfig) (k : ℤ) (T : Owner) (b : Base)
    (dt : ℚ) : Base :=
  (b.setOccupyingInfantry k T).update dt cfg

/-- Repeated capture ticks with per-tick steps `dts`. -/
def captureRun (cfg : BaseConfig) (k : ℤ) (T : Owner) (b : Base)
    (dts : List ℚ) : Base :=
  dts.foldl (captureTick cfg k T) b

/-- `PlayerState` tracks economy state for a player
(pkg/base/manager.go). -/
structure PlayerState where
  credits : ℚ
deriving DecidableEq, Repr

/-- The base package's `Manager` (pkg/base/manager.go); named
`BaseManager` here to distinguish it from the unit manager. -/
structure BaseManager where
  config : BaseConfig
  bases : List Base
  nextID : ℤ
  player1 : PlayerState
  player2 : PlayerState
deriving DecidableEq, Repr

/-- `NewManager` creates a new base manager with 500 starting credits per
player. -/
def BaseManager.new (cfg : BaseConfig) : BaseManager :=
  { config := cfg, bases := [], nextID := 1,
    player1 := ⟨500⟩, player2 := ⟨500⟩ }

/-- `GetBase` returns the (first) base with the given ID
(pkg/base/manager.go, lines 59-66); the returned Go pointer is modelled by
also exposing the index, see `tryPurchaseUnit`. -/
def BaseManager.getBase (m : BaseManager) (id : ℤ) : Option Base :=
  m.bases.find? (fun b => b.id == id)

/-- `SpendCredits` attempts to spend credits for a player: deducts and
returns true only when the player has at least `amount` credits
(pkg/base/manager.go, lines 119-135). -/
def BaseManager.spendCredits (m : BaseManager) (owner : Owner)
    (amount : ℚ) : Bool × BaseManager :=
  match owner with
  | .neutral => (false, m)
  | .player1 =>
      if m.player1.credits ≥ amount then
        (true, { m with player1 := ⟨m.player1.credits - amount⟩ })
      else (false, m)
  | .player2 =>
      if m.player2.credits ≥ amount then
        (true, { m with player2 := ⟨m.player2.credits - amount⟩ })
      else (false, m)

/-- `GetCredits` (pkg/base/manager.go). -/
def BaseManager.getCredits (m : BaseManager) (owner : Owner) : ℚ :=
  match owner with
  | .player1 => m.player1.credits
  | .player2 => m.player2.credits
  | .neutral => 0

/-- `UnitCost` returns the credit cost for a unit type (purchase file). -/
def UnitCost (unitType : UnitType) : ℚ :=
  ((GetConfig unitType).cost : ℚ)

/-- `TryPurchaseUnit` attempts to purchase and queue a unit at a base
(purchase file, lines 36-56): find the base, verify ownership, spend the
credits, enqueue.  The Go code mutates the found base through a pointer;
here the base is updated in place at its index in the list. -/
def BaseManager.tryPurchaseUnit (m : BaseManager) (baseID : ℤ)
    (unitType : UnitType) (owner : Owner) : Bool × BaseManager :=
  match m.bases.findIdx? (fun b => b.id == baseID) with
  | Option.none => (false, m)
  | some i =>
      match m.bases[i]? with
      | Option.none => (false, m)
      | some base =>
          if base.owner ≠ owner then (false, m)
          else
            let cost := UnitCost unitType
            let r := m.spendCredits owner cost
            if r.1 then
              (true, { r.2 with
                bases := r.2.bases.set i (base.queueUnit unitType) })
            else (false, r.2)

/-! ## Unit manager (manager file of the unit package) -/
/-- Squared horizontal distance between two units.  `DistanceTo` computes
`sqrt(dx*dx + dz*dz)`; every use compares it against a nonnegative bound,
which is equivalent to comparing the squares, so the model keeps the
square (exact in `ℚ`). -/
def distSq (a b : Unit) : ℚ :=
  (b.position.x - a.position.x) ^ 2 + (b.position.z - a.position.z) ^ 2

/-- `IsInRange`: target within attack range (squared comparison, see
`distSq`). -/
def Unit.isInRange (u t : Unit) : Bool :=
  decide (distSq u t ≤ u.config.attackRange ^ 2)

/-- `CanAttack` for a non-nil target (the nil check lives at the call
sites, where the optional target index is matched). -/
def Unit.canAttack (u t : Unit) : Bool :=
  if t.isDead then false
  else if u.team == t.team then false
  else u.config.canAttackGround

/-- `SetObjective` (pkg/unit/unit.go): set the destination, clear any
path. -/
def Unit.setObjective (u : Unit) (pos : Vec3) : Unit :=
  { u with
    objective := pos,
    hasObjective := true,
    path := [],
    pathIndex := 0 }

/-- The unit package's `Manager`.  `maxUnits` is a `ℕ` because Go's
`make([]*Unit, 0, maxUnits)` panics on a negative capacity.  The
`Pathfinder` reference is passed explicitly where needed. -/
structure Manager where
  units : List Unit
  nextID : ℕ
  maxUnits : ℕ
deriving DecidableEq, Repr

/-- `NewManager`. -/
def Manager.new (maxUnits : ℕ) : Manager :=
  { units := [], nextID := 1, maxUnits := maxUnits }

/-- `Spawn` creates a new unit at the given position, failing (nil) at
capacity (manager file, lines 27-36). -/
def Manager.spawn (m : Manager) (unitType : UnitType) (team : Team)
    (pos : Vec3) : Option Unit × Manager :=
  if m.units.length ≥ m.maxUnits then (Option.none, m)
  else
    let u := Unit.new m.nextID unitType team pos
    (some u, { m with nextID := m.nextID + 1, units := m.units ++ [u] })

/-- `Count` (manager file). -/
def Manager.count (m : Manager) : ℕ :=
  m.units.length

/-- `GetUnits` returns all units, including dead ones pending cleanup
(manager file). -/
def Manager.getUnits (m : Manager) : List Unit :=
  m.units

/-- The inner scan of `updateAI` (Go: `for _, other := range m.units`):
the nearest live opposing unit this unit can attack, tracked as
(index, squared distance) with the source's initial
`nearestDist = 1000000` squared; `j` counts the position of `other`, and
`j == i` is the model of Go's pointer comparison `other == u`. -/
def aiFindNearestGo (i : ℕ) (u : Unit) :
    ℕ → List Unit → Option ℕ × ℚ → Option ℕ × ℚ
  | _, [], acc => acc
  | j, other :: rest, acc =>
      let acc' :=
        if j == i then acc
        else if other.isDead then acc
        else if other.team == u.team then acc
        else if ¬ u.canAttack other then acc
        else if distSq u other < acc.2 then (some j, distSq u other)
        else acc
      aiFindNearestGo i u (j + 1) rest acc'

/-- The full nearest-enemy scan of `updateAI` for the unit at index `i`. -/
def aiFindNearest (units : List Unit) (i : ℕ) (u : Unit) :
    Option ℕ × ℚ :=
  aiFindNearestGo i u 0 units (Option.none, 1000000 ^ 2)

/-- `updateAI` for one unit: keep a live in-range target, otherwise
re-acquire the nearest attackable enemy within the aggro radius of
`2 × attack range`, else clear the target (manager file, lines 74-115). -/
def aiOne (units : List Unit) (i : ℕ) (u : Unit) : Unit :=
  if u.isDead then u
  else
    let keep := match u.target with
      | Option.none => false
      | some t =>
          match units[t]? with
          | Option.none => false
          | some tu => (! tu.isDead) && u.isInRange tu
    if keep then u
    else
      let r := aiFindNearest units i u
      let aggroRange := u.config.attackRange * 2
      match r.1 with
      | some j =>
          if r.2 ≤ aggroRange ^ 2 then { u with target := some j }
          else { u with target := Option.none }
      | Option.none => { u with target := Option.none }

/-- Indexed in-place rewrite of the collection (Go:
`for i, u := range m.units` writing through the element pointers). -/
def mapWithIndex (f : ℕ → Unit → Unit) : ℕ → List Unit → List Unit
  | _, [] => []
  | i, u :: rest => f i u :: mapWithIndex f (i + 1) rest

/-- `updateAI` (manager file): target re-acquisition for every unit; the
scan reads only fields that the AI pass never writes, so each unit scans
the pre-pass collection exactly as the Go loop does. -/
def Manager.updateAI (m : Manager) (dt : ℚ) : Manager :=
  { m with units := mapWithIndex (fun i u => aiOne m.units i u) 0 m.units }

/-- One `updateCombat` iteration for the unit at index `i`, operating on
the current collection (damage dealt by earlier iterations is visible,
as with Go's pointer writes). -/
def combatOne (st : List Unit) (i : ℕ) : List Unit :=
  match st[i]? with
  | Option.none => st
  | some u =>
      if u.isDead then st
      else
        match u.target with
        | Option.none => st
        | some t =>
            match st[t]? with
            | Option.none => st
            | some tu =>
                if tu.isDead then
                  st.set i { u with target := Option.none, state := .idle }
                else if ¬ u.isInRange tu then
                  (if ¬ u.hasObjective then
                    st.set i (u.setObjective tu.position)
                  else st)
                else if u.attackCooldown ≤ 0 then
                  (st.set t (tu.takeDamage u.config.attackDamage)).set i
                    { u with
                      state := .attacking,
                      attackCooldown := 1 / u.config.attackRate }
                else st

/-- The combat loop: process the units at positions `i, i+1, ...` (one
per unit of fuel) on the evolving collection. -/
def combatGo : List Unit → ℕ → ℕ → List Unit
  | st, _, 0 => st
  | st, i, fuel + 1 => combatGo (combatOne st i) (i + 1) fuel

/-- `updateCombat` (manager file, lines 118-147). -/
def Manager.updateCombat (m : Manager) (dt : ℚ) : Manager :=
  { m with units := combatGo m.units 0 m.units.length }

/-- `cleanup` removes dead units from the manager (manager file, lines
150-159): despite the comment about keeping units "for a short time",
the filter drops every unit whose `IsDead()` holds right now. -/
def Manager.cleanup (m : Manager) : Manager :=
  { m with units := m.units.filter (fun u => ! u.isDead) }

/-- `Manager.Update` (manager file, lines 58-71): per-unit update, AI,
combat, cleanup.  The per-unit state machine `Unit.Update` moves units
with float32 trigonometry that exact arithmetic cannot mirror, so it is
taken as the function argument `unitUpdate`; it is applied to every unit
in place, exactly as the Go loop does. -/
def Manager.update (m : Manager) (dt : ℚ) (unitUpdate : Unit → Unit) :
    Manager :=
  let m1 := { m with units := m.units.map unitUpdate }
  let m2 := m1.updateAI dt
  let m3 := m2.updateCombat dt
  m3.cleanup

/-- `SpawnWithObjective` (manager file, lines 39-55): spawn, then set the
objective on the spawned unit (the last element of the collection) and
seed a path if a pathfinder is attached; `findPath` abstracts the
attached pathfinder's query, `Option.none` an absent pathfinder. -/
def Manager.spawnWithObjective (m : Manager) (unitType : UnitType)
    (team : Team) (pos objective : Vec3)
    (findPath : Option ((ℚ × ℚ) → (ℚ × ℚ) → Option (List (ℚ × ℚ)))) :
    Option Unit × Manager :=
  let r := m.spawn unitType team pos
  match r.1 with
  | Option.none => (Option.none, r.2)
  | some u =>
      let u1 := u.setObjective objective
      let u2 := match findPath with
        | Option.none => u1
        | some fp =>
            match fp (pos.x, pos.z) (objective.x, objective.z) with
            | Option.none => u1
            | some path => { u1 with path := path, pathIndex := 0 }
      (some u2,
        { r.2 with units := r.2.units.set (r.2.units.length - 1) u2 })

/-- A tank at the origin already targeting the infantry unit at index 1. -/
def attacker0 : Unit :=
  { Unit.new 1 .tank .player ⟨0, 0, 0⟩ with target := some 1 }

/-- An enemy infantry unit one world-unit away, with 5 health left (one
tank shot of 20 damage is lethal). -/
def victim0 : Unit :=
  { Unit.new 2 .infantry .enemy ⟨1, 0, 0⟩ with health := 5 }

/-- A manager holding the attacker and the victim.  Neither unit has an
order or an objective and both cooldowns are 0, so the real per-unit
`Unit.Update` is the identity on both (frozen-or-stationary), making
`unitUpdate = id` exact for this input. -/
def deathTickManager : Manager :=
  { units := [attacker0, victim0], nextID := 3, maxUnits := 100 }

/-! ## Grid pathfinder (pkg/unit/pathfind.go)

Costs and heuristic values are `float32` in the source (1.0, 1.41, 0.41);
here they are exact and scaled by 100 into `ℕ` (100, 141, 41), an order
isomorphism, so every comparison the algorithm makes is unchanged. -/
/-- `Pathfinder` implements A* pathfinding on a grid. -/
structure Pathfinder where
  width : ℕ
  height : ℕ
  cellSize : ℚ
  blocked : List Bool
deriving DecidableEq, Repr

/-- `NewPathfinder` creates a pathfinder for the given map size with no
blocked cells. -/
def Pathfinder.new (width height : ℕ) (cellSize : ℚ) : Pathfinder :=
  { width := width, height := height, cellSize := cellSize,
    blocked := List.replicate (width * height) false }

/-- `IsBlocked`: out-of-bounds cells count as blocked; in-bounds cells
read the occupancy list at `y*width + x` (`getD` never fires its default
on grids built by `NewPathfinder`/`SetBlocked`). -/
def Pathfinder.isBlocked (p : Pathfinder) (x y : ℤ) : Bool :=
  if x < 0 ∨ x ≥ (p.width : ℤ) ∨ y < 0 ∨ y ≥ (p.height : ℤ) then true
  else p.blocked.getD (y * (p.width : ℤ) + x).toNat false

/-- `SetBlocked` marks an in-bounds cell as blocked or unblocked. -/
def Pathfinder.setBlocked (p : Pathfinder) (x y : ℤ) (b : Bool) :
    Pathfinder :=
  if 0 ≤ x ∧ x < (p.width : ℤ) ∧ 0 ≤ y ∧ y < (p.height : ℤ) then
    { p with blocked := p.blocked.set (y * (p.width : ℤ) + x).toNat b }
  else p

/-- The map key `y*width + x` used for `gScore` and `cameFrom`. -/
def key (p : Pathfinder) (x y : ℤ) : ℤ :=
  y * (p.width : ℤ) + x

/-- Go's `int(f)` truncation toward zero on an exact rational
(`Int.tdiv` is T-division: it rounds the quotient toward zero, as Go's
float-to-int conversion does). -/
def ratTrunc (q : ℚ) : ℤ :=
  q.num.tdiv (q.den : ℤ)

/-- `WorldToGrid` converts world coordinates to grid coordinates (the
grid is centered on the world origin). -/
def Pathfinder.worldToGrid (p : Pathfinder) (pos : ℚ × ℚ) : ℤ × ℤ :=
  let offsetX : ℚ := (p.width : ℚ) * p.cellSize / 2
  let offsetY : ℚ := (p.height : ℚ) * p.cellSize / 2
  (ratTrunc ((pos.1 + offsetX) / p.cellSize),
   ratTrunc ((pos.2 + offsetY) / p.cellSize))

/-- `GridToWorld` converts grid coordinates to world coordinates (the
center of the cell). -/
def Pathfinder.gridToWorld (p : Pathfinder) (c : ℤ × ℤ) : ℚ × ℚ :=
  let offsetX : ℚ := (p.width : ℚ) * p.cellSize / 2
  let offsetY : ℚ := (p.height : ℚ) * p.cellSize / 2
  ((c.1 : ℚ) * p.cellSize + p.cellSize / 2 - offsetX,
   (c.2 : ℚ) * p.cellSize + p.cellSize / 2 - offsetY)

/-- `heuristic`: octile distance `max(dx,dy) + 0.41*min(dx,dy)`, scaled
by 100. -/
def heuristic (x y gx gy : ℤ) : ℕ :=
  let dx := (gx - x).natAbs
  let dy := (gy - y).natAbs
  100 * max dx dy + 41 * min dx dy

/-- One entry of the source's parallel `dirs`/`costs` arrays; `diag`
records whether the index is `≥ 4` (the four diagonal directions). -/
structure Dir where
  dx : ℤ
  dy : ℤ
  cost : ℕ
  diag : Bool
deriving DecidableEq, Repr

/-- The 8 directions of `FindPath`, in source order: four cardinal moves
of cost 1.0 (here 100), four diagonal moves of cost 1.41 (here 141). -/
def dirs : List Dir :=
  [⟨0, -1, 100, false⟩, ⟨0, 1, 100, false⟩,
   ⟨-1, 0, 100, false⟩, ⟨1, 0, 100, false⟩,
   ⟨-1, -1, 141, true⟩, ⟨1, -1, 141, true⟩,
   ⟨-1, 1, 141, true⟩, ⟨1, 1, 141, true⟩]

/-- `pathNode`: a node of the A* search (the heap-bookkeeping `index`
field of the source is positional here). -/
structure Node where
  x : ℤ
  y : ℤ
  f : ℕ
  g : ℕ
  h : ℕ
deriving DecidableEq, Repr

/-- `nodeHeap.Less`: ordering by `f`. -/
def nodeLess (a b : Node) : Bool :=
  decide (a.f < b.f)

/-- Read of the heap slice (in range at every use reachable from the
algorithm). -/
def hGet (l : List Node) (i : ℕ) : Node :=
  l.getD i ⟨0, 0, 0, 0, 0⟩

/-- `nodeHeap.Swap`. -/
def hSwap (l : List Node) (i j : ℕ) : List Node :=
  (l.set i (hGet l j)).set j (hGet l i)

/-- `container/heap.up`: sift the element at `j` up while it is smaller
than its parent `(j-1)/2`. -/
def heapUp (l : List Node) (j : ℕ) : List Node :=
  if j = 0 then l
  else
    let i := (j - 1) / 2
    if nodeLess (hGet l j) (hGet l i) then heapUp (hSwap l i j) i else l
termination_by j
decreasing_by omega

/-- `container/heap.down` on the prefix `[0, n)`: sift the element at `i`
down to the smaller child while it is larger. -/
def heapDown (l : List Node) (i n : ℕ) : List Node :=
  let j1 := 2 * i + 1
  if j1 ≥ n then l
  else
    let j := if 2 * i + 2 < n ∧ nodeLess (hGet l (2 * i + 2)) (hGet l j1)
      then 2 * i + 2 else j1
    if nodeLess (hGet l j) (hGet l i) then heapDown (hSwap l i j) j n else l
termination_by n - i
decreasing_by
  simp only [gt_iff_lt, not_le] at *
  split <;> omega

/-- `container/heap.Push`: append, then sift up from the last slot. -/
def heapPush (l : List Node) (nd : Node) : List Node :=
  heapUp (l ++ [nd]) l.length

/-- `container/heap.Pop`: swap the root with the last slot, sift down on
the shortened prefix, remove and return the last slot (the old root). -/
def heapPop (l : List Node) : Node × List Node :=
  let n := l.length - 1
  let l2 := heapDown (hSwap l 0 n) 0 n
  (hGet l2 n, l2.take n)

/-- A free (in-bounds, unblocked) cell. -/
def Pathfinder.free (p : Pathfinder) (c : ℤ × ℤ) : Prop :=
  p.isBlocked c.1 c.2 = false

instance (p : Pathfinder) (c : ℤ × ℤ) : Decidable (p.free c) :=
  inferInstanceAs (Decidable (p.isBlocked c.1 c.2 = false))

/-- A legal move of the cost model: between two distinct free cells at
Chebyshev distance 1, and a diagonal move additionally requires both
flanking cardinal cells to be free (no corner cutting). -/
def ValidStep (p : Pathfinder) (a b : ℤ × ℤ) : Prop :=
  p.free a ∧ p.free b ∧ a ≠ b ∧
  (b.1 - a.1).natAbs ≤ 1 ∧ (b.2 - a.2).natAbs ≤ 1 ∧
  (b.1 ≠ a.1 ∧ b.2 ≠ a.2 → p.free (b.1, a.2) ∧ p.free (a.1, b.2))

/-- Cost of one step, scaled by 100: 141 for a diagonal move, 100 for a
cardinal move. -/
def stepCost (a b : ℤ × ℤ) : ℕ :=
  if a.1 ≠ b.1 ∧ a.2 ≠ b.2 then 141 else 100

/-- A cell route from `s` to `t`: nonempty, chained by `ValidStep`. -/
def ValidRoute (p : Pathfinder) (s t : ℤ × ℤ) (r : List (ℤ × ℤ)) : Prop :=
  r.head? = some s ∧ r.getLast? = some t ∧ p.free s ∧
  List.Chain' (ValidStep p) r

/-- Total cost of a route (scaled by 100). -/
def routeCost : List (ℤ × ℤ) → ℕ
  | [] => 0
  | [_] => 0
  | a :: b :: rest => stepCost a b + routeCost (b :: rest)

/-- Cost of one step in the claim's units: 1.41 for a diagonal move, 1.0
for a cardinal move. -/
def stepCostQ (a b : ℤ × ℤ) : ℚ :=
  if a.1 ≠ b.1 ∧ a.2 ≠ b.2 then 1.41 else 1.0

/-- Total cost of a route in the claim's units. -/
def routeCostQ : List (ℤ × ℤ) → ℚ
  | [] => 0
  | [_] => 0
  | a :: b :: rest => stepCostQ a b + routeCostQ (b :: rest)

/-- The mutable search state of one `FindPath` call. -/
structure AState where
  openSet : List Node
  gScore : List (ℤ × ℕ)
  cameFrom : List (ℤ × (ℤ × ℤ))
deriving DecidableEq, Repr

/-- Go map assignment `m[k] = v` on an association list: replace the
existing entry or append a fresh one. -/
def mapSet {β : Type} (m : List (ℤ × β)) (k : ℤ) (v : β) :
    List (ℤ × β) :=
  match m with
  | [] => [(k, v)]
  | (k', v') :: rest =>
      if k' = k then (k, v) :: rest else (k', v') :: mapSet rest k v

/-- The neighbor-relaxation body of the `for i, dir := range dirs` loop
of `FindPath` (pathfind.go, lines 112-143). -/
def relaxOne (p : Pathfinder) (goalX goalY : ℤ) (cur : Node)
    (st : AState) (d : Dir) : AState :=
  let nx := cur.x + d.dx
  let ny := cur.y + d.dy
  if p.isBlocked nx ny then st
  else if d.diag ∧ (p.isBlocked (cur.x + d.dx) cur.y ∨
      p.isBlocked cur.x (cur.y + d.dy)) then st
  else
    let tentativeG :=
      ((st.gScore.lookup (key p cur.x cur.y)).getD 0) + d.cost
    let neighborKey := key p nx ny
    let improved := match st.gScore.lookup neighborKey with
      | Option.none => true
      | some existingG => decide (tentativeG < existingG)
    if improved then
      let hN := heuristic nx ny goalX goalY
      let neighbor : Node :=
        { x := nx, y := ny, g := tentativeG, h := hN,
          f := tentativeG + hN }
      { openSet := heapPush st.openSet neighbor,
        gScore := mapSet st.gScore neighborKey tentativeG,
        cameFrom := mapSet st.cameFrom neighborKey (cur.x, cur.y) }
    else st

/-- All eight neighbor relaxations of one popped node, in source order. -/
def relaxAll (p : Pathfinder) (goalX goalY : ℤ) (cur : Node)
    (st : AState) : AState :=
  dirs.foldl (relaxOne p goalX goalY cur) st

/-- `reconstructPath`'s backward walk over `cameFrom` at the cell level
(the world conversion and simplification are applied by `findPath`).
The walk stops at a missing entry; `fuel` bounds the chain length and is
chosen large enough that it never runs out on reachable states (see
`reconstructCells_spec`). -/
def reconstructCells (came : List (ℤ × (ℤ × ℤ))) (p : Pathfinder) :
    ℕ → (ℤ × ℤ) → List (ℤ × ℤ)
  | 0, c => [c]
  | fuel + 1, c =>
      match came.lookup (key p c.1 c.2) with
      | Option.none => [c]
      | some prev => reconstructCells came p fuel prev ++ [c]

/-- Fuel for the main loop; exceeds the loop's potential `phi` of any
reachable search (see `astarLoop_runs_out_never`). -/
def fuelBound (p : Pathfinder) : ℕ :=
  p.width * p.height * (141 * (p.width * p.height) + 2) + 2

/-- The search state after `heap.Init`/`heap.Push(startNode)` and the
initial `gScore` assignment of `FindPath`. -/
def initState (p : Pathfinder) (sx sy gx gy : ℤ) : AState :=
  let startH := heuristic sx sy gx gy
  { openSet := heapPush []
      { x := sx, y := sy, g := 0, h := startH, f := 0 + startH },
    gScore := [(key p sx sy, 0)],
    cameFrom := [] }

/-- The `for openSet.Len() > 0` loop of `FindPath`.  The extra `Option`
layer distinguishes fuel exhaustion (`Option.none`, proven unreachable
from `initState` with `fuelBound` fuel) from the source's no-path result
(`some Option.none`). -/
def astarLoop (p : Pathfinder) (goalX goalY : ℤ) :
    ℕ → AState → Option (Option (List (ℤ × ℤ)))
  | 0, _ => Option.none
  | fuel + 1, st =>
      if st.openSet.isEmpty then some Option.none
      else
        let pr := heapPop st.openSet
        let cur := pr.1
        if cur.x = goalX ∧ cur.y = goalY then
          some (some (reconstructCells st.cameFrom p
            (141 * (p.width * p.height) + 2) (cur.x, cur.y)))
        else
          astarLoop p goalX goalY fuel
            (relaxAll p goalX goalY cur { st with openSet := pr.2 })

/-- `FindPath` at the cell level: the blocked/out-of-bounds check, the
degenerate single-cell case, then the A* loop; returns the unsimplified
cell route. -/
def Pathfinder.findPathCells (p : Pathfinder) (sx sy gx gy : ℤ) :
    Option (List (ℤ × ℤ)) :=
  if p.isBlocked sx sy || p.isBlocked gx gy then Option.none
  else if sx = gx ∧ sy = gy then some [(gx, gy)]
  else
    match astarLoop p gx gy (fuelBound p) (initState p sx sy gx gy) with
    | some r => r
    | Option.none => Option.none

/-- The collinearity test of `simplifyPath`: the source normalizes both
direction vectors and keeps the waypoint when their dot product is
`< 0.99`.  Along a raw A* route every direction is one of the 8 king
moves scaled by the cell size, so the normalized dot product is one of
`1, √2/2, 0, -√2/2, -1` and `≥ 0.99` holds exactly when the normalized
directions are equal — decided rationally as zero cross product and
positive dot product. -/
def sameDir (dx1 dy1 dx2 dy2 : ℚ) : Bool :=
  decide (dx1 * dy2 - dy1 * dx2 = 0 ∧ 0 < dx1 * dx2 + dy1 * dy2)

/-- The `for i := 1; i < len(path)-1; i++` loop of `simplifyPath`:
`last` is the most recently kept waypoint (`result[len(result)-1]`), the
list holds `path[i], path[i+1], ...`; a waypoint is kept only when both
direction vectors are nonzero and the direction changed. -/
def simplifyAux (last : ℚ × ℚ) : List (ℚ × ℚ) → List (ℚ × ℚ)
  | curr :: next :: rest =>
      let dx1 := curr.1 - last.1
      let dy1 := curr.2 - last.2
      let dx2 := next.1 - curr.1
      let dy2 := next.2 - curr.2
      let nonzero := ¬ (dx1 = 0 ∧ dy1 = 0) ∧ ¬ (dx2 = 0 ∧ dy2 = 0)
      if nonzero ∧ ¬ (sameDir dx1 dy1 dx2 dy2 = true) then
        curr :: simplifyAux curr (next :: rest)
      else simplifyAux last (next :: rest)
  | [lastPt] => [lastPt]
  | [] => []

/-- `simplifyPath` removes waypoints that continue in a straight line;
paths of at most two waypoints are returned unchanged. -/
def simplifyPath (path : List (ℚ × ℚ)) : List (ℚ × ℚ) :=
  match path with
  | p0 :: p1 :: p2 :: rest => p0 :: simplifyAux p0 (p1 :: p2 :: rest)
  | _ => path

/-- `FindPath` on world positions: convert, search, convert back and
simplify. -/
def Pathfinder.findPath (p : Pathfinder) (start goal : ℚ × ℚ) :
    Option (List (ℚ × ℚ)) :=
  let s := p.worldToGrid start
  let g := p.worldToGrid goal
  (p.findPathCells s.1 s.2 g.1 g.2).map
    (fun cells => simplifyPath (cells.map p.gridToWorld))

/-! ### Binary-heap correctness (container/heap semantics) -/
/-- The min-heap ordering property on the prefix `[0, n)`: every non-root
position is `≥` its parent `(k-1)/2` in `f`. -/
def HeapPropN (l : List Node) (n : ℕ) : Prop :=
  ∀ k, 0 < k → k < n → (hGet l ((k - 1) / 2)).f ≤ (hGet l k).f

/-- The min-heap ordering property of the whole slice. -/
def HeapProp (l : List Node) : Prop :=
  HeapPropN l l.length

/-- Invariant of `heapUp`: the heap property holds everywhere except
possibly on the edge into `j`, and the children of `j` (if any) are `≥`
the parent of `j`. -/
def UpInv (l : List Node) (j : ℕ) : Prop :=
  (∀ k, 0 < k → k < l.length → k ≠ j →
    (hGet l ((k - 1) / 2)).f ≤ (hGet l k).f) ∧
  (∀ c, 0 < c → c < l.length → (c - 1) / 2 = j → 0 < j →
    (hGet l ((j - 1) / 2)).f ≤ (hGet l c).f)

/-- Invariant of `heapDown` on the prefix `[0, n)`: the heap property
holds except possibly on the edges out of `i`, and the children of `i`
are `≥` the parent of `i`. -/
def DownInv (l : List Node) (i n : ℕ) : Prop :=
  (∀ k, 0 < k → k < n → (k - 1) / 2 ≠ i →
    (hGet l ((k - 1) / 2)).f ≤ (hGet l k).f) ∧
  (∀ c, 0 < c → c < n → (c - 1) / 2 = i → 0 < i →
    (hGet l ((i - 1) / 2)).f ≤ (hGet l c).f)

/-! ### A* search invariants -/
/-- `gScore` lookup at a cell. -/
def gLook (p : Pathfinder) (st : AState) (c : ℤ × ℤ) : Option ℕ :=
  st.gScore.lookup (key p c.1 c.2)

/-- `cameFrom` lookup at a cell. -/
def cLook (p : Pathfinder) (st : AState) (c : ℤ × ℤ) : Option (ℤ × ℤ) :=
  st.cameFrom.lookup (key p c.1 c.2)

/-- The loop invariant of the A* search from start `s` toward goal
`(gx, gy)`. -/
structure AInv (p : Pathfinder) (s : ℤ × ℤ) (gx gy : ℤ) (st : AState) :
    Prop where
  sfree : p.free s
  gfree : p.free (gx, gy)
  hp : HeapProp st.openSet
  start_g : gLook p st s = some 0
  gwf : ∀ kk v, st.gScore.lookup kk = some v →
    ∃ c : ℤ × ℤ, kk = key p c.1 c.2 ∧ p.free c
  gnodup : (st.gScore.map Prod.fst).Nodup
  gbound : ∀ kk v, st.gScore.lookup kk = some v →
    v ≤ 141 * st.gScore.length
  node_inv : ∀ nd ∈ st.openSet, p.free (nd.x, nd.y) ∧
    nd.h = heuristic nd.x nd.y gx gy ∧ nd.f = nd.g + nd.h ∧
    ∃ v, gLook p st (nd.x, nd.y) = some v ∧ v ≤ nd.g
  pinv : ∀ c : ℤ × ℤ, p.free c → ∀ v, gLook p st c = some v →
    (∃ nd ∈ st.openSet, nd.x = c.1 ∧ nd.y = c.2 ∧ nd.g ≤ v) ∨
    (∀ b, ValidStep p c b →
      ∃ vb, gLook p st b = some vb ∧ vb ≤ v + stepCost c b)
  came : ∀ c : ℤ × ℤ, p.free c → ∀ pv, cLook p st c = some pv →
    ValidStep p pv c ∧ ∃ vc vp, gLook p st c = some vc ∧
      gLook p st pv = some vp ∧ vp + stepCost pv c ≤ vc
  dom : ∀ c : ℤ × ℤ, p.free c → ∀ v, gLook p st c = some v →
    c = s ∨ ∃ pv, cLook p st c = some pv
  goal_open : gLook p st (gx, gy) = Option.none ∨
    ∃ nd ∈ st.openSet, nd.x = gx ∧ nd.y = gy

/-- The invariant of the neighbor-relaxation phase after popping the
node at cell `cur` with `gScore` value `g0` (`base` is the state right
after the pop). -/
structure RInv (p : Pathfinder) (s : ℤ × ℤ) (gx gy : ℤ) (cur : ℤ × ℤ)
    (g0 : ℕ) (base : AState) (st : AState) : Prop where
  sfree : p.free s
  gfree : p.free (gx, gy)
  hp : HeapProp st.openSet
  start_g : gLook p st s = some 0
  gwf : ∀ kk v, st.gScore.lookup kk = some v →
    ∃ c : ℤ × ℤ, kk = key p c.1 c.2 ∧ p.free c
  gnodup : (st.gScore.map Prod.fst).Nodup
  gbound : ∀ kk v, st.gScore.lookup kk = some v →
    v ≤ 141 * st.gScore.length
  node_inv : ∀ nd ∈ st.openSet, p.free (nd.x, nd.y) ∧
    nd.h = heuristic nd.x nd.y gx gy ∧ nd.f = nd.g + nd.h ∧
    ∃ v, gLook p st (nd.x, nd.y) = some v ∧ v ≤ nd.g
  pexc : ∀ c : ℤ × ℤ, p.free c → c ≠ cur → ∀ v, gLook p st c = some v →
    (∃ nd ∈ st.openSet, nd.x = c.1 ∧ nd.y = c.2 ∧ nd.g ≤ v) ∨
    (∀ b, ValidStep p c b →
      ∃ vb, gLook p st b = some vb ∧ vb ≤ v + stepCost c b)
  came : ∀ c : ℤ × ℤ, p.free c → ∀ pv, cLook p st c = some pv →
    ValidStep p pv c ∧ ∃ vc vp, gLook p st c = some vc ∧
      gLook p st pv = some vp ∧ vp + stepCost pv c ≤ vc
  dom : ∀ c : ℤ × ℤ, p.free c → ∀ v, gLook p st c = some v →
    c = s ∨ ∃ pv, cLook p st c = some pv
  goal_open : gLook p st (gx, gy) = Option.none ∨
    ∃ nd ∈ st.openSet, nd.x = gx ∧ nd.y = gy
  cur_free : p.free cur
  cur_g : gLook p st cur = some g0
  mono : ∀ kk v, base.gScore.lookup kk = some v →
    ∃ v2, st.gScore.lookup kk = some v2 ∧ v2 ≤ v
  omem : ∀ nd ∈ base.openSet, nd ∈ st.openSet
  fbound : st.openSet.length + (st.gScore.map Prod.snd).sum +
      (p.width * p.height - st.gScore.length) *
        (141 * (p.width * p.height) + 2) ≤
    base.openSet.length + (base.gScore.map Prod.snd).sum +
      (p.width * p.height - base.gScore.length) *
        (141 * (p.width * p.height) + 2)

/-- The loop potential: open-set size, plus total `gScore` mass, plus a
large penalty for every cell that has no `gScore` entry yet. -/
def phi (p : Pathfinder) (st : AState) : ℕ :=
  st.openSet.length + (st.gScore.map Prod.snd).sum +
    (p.width * p.height - st.gScore.length) *
      (141 * (p.width * p.height) + 2)

instance (p : Pathfinder) : DecidableRel (ValidStep p) := fun a b =>
  inferInstanceAs (Decidable (p.free a ∧ p.free b ∧ a ≠ b ∧
    (b.1 - a.1).natAbs ≤ 1 ∧ (b.2 - a.2).natAbs ≤ 1 ∧
    (b.1 ≠ a.1 ∧ b.2 ≠ a.2 → p.free (b.1, a.2) ∧ p.free (a.1, b.2))))

instance (p : Pathfinder) (s t : ℤ × ℤ) (r : List (ℤ × ℤ)) :
    Decidable (ValidRoute p s t r) :=
  inferInstanceAs (Decidable (r.head? = some s ∧ r.getLast? = some t ∧
    p.free s ∧ List.Chain' (ValidStep p) r))

/-- Claim C4: for a unit with armor in `[0, 1)` and damage amount `≥ 0`,
`TakeDamage` decreases health by exactly `amount * (1 - armor)` clamped
below at 0, and whenever the resulting health would be `≤ 0` the health is
set to 0 and the state becomes Dead. -/
theorem C4_takeDamage_armor_clamp (u : Unit) (amount : ℚ)
    (hamt : 0 ≤ amount) (ha0 : 0 ≤ u.config.armor)
    (ha1 : u.config.armor < 1) :
    (u.takeDamage amount).health =
      max 0 (u.health - amount * (1 - u.config.armor)) ∧
    (u.health - amount * (1 - u.config.armor) ≤ 0 →
      (u.takeDamage amount).health = 0 ∧
      (u.takeDamage amount).state = .dead) ∧
    (0 < u.health - amount * (1 - u.config.armor) →
      (u.takeDamage amount).state = u.state) := by
  by_cases h : u.health - amount * (1 - u.config.armor) ≤ 0
  · have e1 : u.takeDamage amount = { u with health := 0, state := .dead } := by
      simp [Unit.takeDamage, h]
    rw [e1]
    exact ⟨(max_eq_left h).symm, fun _ => ⟨rfl, rfl⟩,
      fun hpos => absurd h (not_le.mpr hpos)⟩
  · have e1 : u.takeDamage amount =
        { u with health := u.health - amount * (1 - u.config.armor) } := by
      simp [Unit.takeDamage, h]
    rw [e1]
    push_neg at h
    exact ⟨(max_eq_right h.le).symm, fun hc => absurd hc (not_le.mpr h),
      fun _ => rfl⟩

/-- Witness for C4 at a concrete input: a fresh tank (health 100,
armor 0.3) taking 10 damage. -/
theorem C4_takeDamage_armor_clamp_witness :
    ((Unit.new 1 .tank .player ⟨0, 0, 0⟩).takeDamage 10).health =
      max 0 ((Unit.new 1 .tank .player ⟨0, 0, 0⟩).health -
        10 * (1 - (Unit.new 1 .tank .player ⟨0, 0, 0⟩).config.armor)) :=
  (C4_takeDamage_armor_clamp (Unit.new 1 .tank .player ⟨0, 0, 0⟩) 10
    (by norm_num) (by norm_num [Unit.new, GetConfig])
    (by norm_num [Unit.new, GetConfig])).1

/-- Claim C10: `Heal` adds `amount` to health clamped at `MaxHealth`, so
health is `≤ MaxHealth` afterwards, and no other field changes (in
particular a Dead unit stays Dead). -/
theorem C10_heal_clamp (u : Unit) (amount : ℚ) (hamt : 0 ≤ amount) :
    u.heal amount = { u with health := min u.maxHealth (u.health + amount) } ∧
    (u.heal amount).health ≤ u.maxHealth ∧
    (u.heal amount).state = u.state := by
  by_cases h : u.health + amount > u.maxHealth
  · have e1 : u.heal amount = { u with health := u.maxHealth } := by
      simp [Unit.heal, h]
    rw [e1, min_eq_left h.le]
    exact ⟨rfl, le_refl _, rfl⟩
  · have e1 : u.heal amount = { u with health := u.health + amount } := by
      simp [Unit.heal, h]
    push_neg at h
    rw [e1, min_eq_right h]
    exact ⟨rfl, h, rfl⟩

/-- Witness for C10 at a concrete input: a damaged infantry unit healed
by 7. -/
theorem C10_heal_clamp_witness :
    (((Unit.new 2 .infantry .enemy ⟨0, 0, 0⟩).takeDamage 10).heal 7).health ≤
      ((Unit.new 2 .infantry .enemy ⟨0, 0, 0⟩).takeDamage 10).maxHealth :=
  (C10_heal_clamp ((Unit.new 2 .infantry .enemy ⟨0, 0, 0⟩).takeDamage 10) 7
    (by norm_num)).2.1

/-- Claim C9, counterexample: the cooldown can become negative.  From a
fresh unit (cooldown 0, attack rate 1, per-tick `dt ≤ 2`), one attack sets
the cooldown to 1 and one `Update` with `dt = 2` drives it to `-1 < 0`,
so `Update` does not floor the cooldown at 0. -/
theorem C9_cooldown_counterexample :
    CooldownReach 1 2 (-1) ∧ ¬ (0 ≤ (-1 : ℚ)) := by
  constructor
  · have h1 : CooldownReach 1 2 ((1 : ℚ) / 1) :=
      CooldownReach.attack 0 CooldownReach.init le_rfl
    have h2 : CooldownReach 1 2 (1 : ℚ) := by simpa using h1
    have h3 : CooldownReach 1 2 (updateCooldownStep 1 2) :=
      CooldownReach.update 1 2 h2 (by norm_num) le_rfl
    have : updateCooldownStep 1 2 = -1 := by norm_num [updateCooldownStep]
    rwa [this] at h3
  · norm_num

/-- Claim C9, amended: `Update` decrements the cooldown by `dt` only while
it is strictly positive and never touches it once it is `≤ 0`, so the
cooldown has no floor at 0 but can only undershoot by less than one tick:
every cooldown reachable with per-tick `dt ≤ D` satisfies
`-D ≤ AttackCooldown` (for nonnegative attack rate and `0 ≤ D`). -/
theorem C9_cooldown_lower_bound (rate D cd : ℚ) (hD : 0 ≤ D)
    (hrate : 0 ≤ rate) (h : CooldownReach rate D cd) : -D ≤ cd := by
  induction h with
  | init => linarith
  | update cd' dt _ h0 h1 ih =>
      unfold updateCooldownStep
      by_cases hpos : cd' > 0
      · simp only [hpos, if_pos]
        linarith
      · simp only [hpos, if_neg, not_false_iff]
        exact ih
  | attack cd' _ _ _ =>
      have : 0 ≤ 1 / rate := by positivity
      linarith

/-- Witness for the amended C9 at a concrete input: the reachable
cooldown `-1` (attack rate 1, `dt ≤ 2`) is indeed `≥ -2`. -/
theorem C9_cooldown_lower_bound_witness : -(2 : ℚ) ≤ -1 :=
  C9_cooldown_lower_bound 1 2 (-1) (by norm_num) (by norm_num)
    C9_cooldown_counterexample.1

/-- Evaluation of one capture tick in the steady accrual regime: owner
unchanged, progress grows by `k * dt / captureTime`. -/
theorem captureTick_accrues (cfg : BaseConfig) (k : ℤ) (T : Owner)
    (b : Base) (dt : ℚ) (htype : b.type = .outpost) (howner : T ≠ b.owner)
    (hcap : b.capturingOwner = T) (hk : 1 ≤ k)
    (hlt : b.captureProgress + (k : ℚ) * dt / cfg.captureTime < 1) :
    captureTick cfg k T b dt =
      { b with
        accumulatedIncome := if b.owner ≠ Owner.neutral then
          b.accumulatedIncome + b.incomeRate * dt else b.accumulatedIncome,
        spawnCooldown := if b.spawnCooldown > 0 then b.spawnCooldown - dt
          else b.spawnCooldown,
        occupyingInfantry := k,
        occupyingOwner := T,
        captureProgress :=
          b.captureProgress + (k : ℚ) * dt / cfg.captureTime } := by
  have hk0 : ¬ ((k : ℤ) ≤ 0) := by omega
  have hT : ¬ (T = b.owner) := howner
  have hge : ¬ (b.captureProgress + (k : ℚ) * dt / cfg.captureTime ≥ 1) :=
    not_le.mpr hlt
  unfold captureTick Base.setOccupyingInfantry Base.update
    Base.updateCapture
  simp only [htype, hcap, show (1.0 : ℚ) = 1 from by norm_num]
  split_ifs <;> simp_all

/-- Evaluation of the first capture tick of a fresh capturer
(`CapturingOwner ≠ T`): progress resets to 0 and then grows by
`k * dt / captureTime`. -/
theorem captureTick_first (cfg : BaseConfig) (k : ℤ) (T : Owner)
    (b : Base) (dt : ℚ) (htype : b.type = .outpost) (howner : T ≠ b.owner)
    (hcap : b.capturingOwner ≠ T) (hk : 1 ≤ k)
    (hlt : (k : ℚ) * dt / cfg.captureTime < 1) :
    captureTick cfg k T b dt =
      { b with
        accumulatedIncome := if b.owner ≠ Owner.neutral then
          b.accumulatedIncome + b.incomeRate * dt else b.accumulatedIncome,
        spawnCooldown := if b.spawnCooldown > 0 then b.spawnCooldown - dt
          else b.spawnCooldown,
        occupyingInfantry := k,
        occupyingOwner := T,
        capturingOwner := T,
        captureProgress := 0 + (k : ℚ) * dt / cfg.captureTime } := by
  have hk0 : ¬ ((k : ℤ) ≤ 0) := by omega
  have hT : ¬ (T = b.owner) := howner
  have hne : b.capturingOwner ≠ T := hcap
  have hge : ¬ ((0 : ℚ) + (k : ℚ) * dt / cfg.captureTime ≥ 1) := by
    rw [zero_add]; exact not_le.mpr hlt
  unfold captureTick Base.setOccupyingInfantry Base.update
    Base.updateCapture
  simp only [htype, show (1.0 : ℚ) = 1 from by norm_num]
  split_ifs <;> simp_all

/-- Evaluation of the capture tick on which accrued progress reaches 1:
ownership flips to the capturer, progress and the occupancy bookkeeping
reset, all in the same step. -/
theorem captureTick_flip (cfg : BaseConfig) (k : ℤ) (T : Owner)
    (b : Base) (dt : ℚ) (htype : b.type = .outpost) (howner : T ≠ b.owner)
    (hcap : b.capturingOwner = T) (hk : 1 ≤ k)
    (hge : 1 ≤ b.captureProgress + (k : ℚ) * dt / cfg.captureTime) :
    captureTick cfg k T b dt =
      { b with
        accumulatedIncome := if b.owner ≠ Owner.neutral then
          b.accumulatedIncome + b.incomeRate * dt else b.accumulatedIncome,
        spawnCooldown := if b.spawnCooldown > 0 then b.spawnCooldown - dt
          else b.spawnCooldown,
        owner := T,
        captureProgress := 0,
        capturingOwner := Owner.neutral,
        occupyingInfantry := 0,
        occupyingOwner := Owner.neutral } := by
  have hk0 : ¬ ((k : ℤ) ≤ 0) := by omega
  have hT : ¬ (T = b.owner) := howner
  unfold captureTick Base.setOccupyingInfantry Base.update
    Base.updateCapture
  simp only [htype, hcap, show (1.0 : ℚ) = 1 from by norm_num]
  split_ifs <;> simp_all

/-- Evaluation of a first capture tick of a fresh capturer that already
reaches progress 1 (very large `dt`): the flip happens immediately. -/
theorem captureTick_first_flip (cfg : BaseConfig) (k : ℤ) (T : Owner)
    (b : Base) (dt : ℚ) (htype : b.type = .outpost) (howner : T ≠ b.owner)
    (hcap : b.capturingOwner ≠ T) (hk : 1 ≤ k)
    (hge : 1 ≤ (k : ℚ) * dt / cfg.captureTime) :
    captureTick cfg k T b dt =
      { b with
        accumulatedIncome := if b.owner ≠ Owner.neutral then
          b.accumulatedIncome + b.incomeRate * dt else b.accumulatedIncome,
        spawnCooldown := if b.spawnCooldown > 0 then b.spawnCooldown - dt
          else b.spawnCooldown,
        owner := T,
        captureProgress := 0,
        capturingOwner := Owner.neutral,
        occupyingInfantry := 0,
        occupyingOwner := Owner.neutral } := by
  have hk0 : ¬ ((k : ℤ) ≤ 0) := by omega
  have hT : ¬ (T = b.owner) := howner
  have hge' : (0 : ℚ) + (k : ℚ) * dt / cfg.captureTime ≥ 1 := by
    rw [zero_add]; exact hge
  unfold captureTick Base.setOccupyingInfantry Base.update
    Base.updateCapture
  simp only [htype, show (1.0 : ℚ) = 1 from by norm_num]
  split_ifs <;> simp_all

/-- As long as every accrued partial sum stays below the capture
threshold, repeated capture ticks keep the owner and accumulate
progress linearly. -/
theorem captureRun_noflip (cfg : BaseConfig) (k : ℤ) (T : Owner)
    (hk : 1 ≤ k) (hct : 0 < cfg.captureTime) :
    ∀ (dts : List ℚ) (b : Base) (s : ℚ),
      b.type = .outpost → T ≠ b.owner → b.capturingOwner = T →
      b.captureProgress = (k : ℚ) * s / cfg.captureTime →
      (∀ n, n ≤ dts.length →
        (k : ℚ) * (s + (dts.take n).sum) < cfg.captureTime) →
      (captureRun cfg k T b dts).owner = b.owner ∧
      (captureRun cfg k T b dts).capturingOwner = T ∧
      (captureRun cfg k T b dts).type = .outpost ∧
      (captureRun cfg k T b dts).captureProgress =
        (k : ℚ) * (s + dts.sum) / cfg.captureTime := by
  intro dts
  induction dts with
  | nil =>
      intro b s ht ho hc hp _
      refine ⟨rfl, hc, ht, ?_⟩
      simpa [captureRun] using hp
  | cons d rest ih =>
      intro b s ht ho hc hp hpre
      have h1 : (k : ℚ) * (s + d) < cfg.captureTime := by
        have := hpre 1 (by simp)
        simpa using this
      have hlt : b.captureProgress + (k : ℚ) * d / cfg.captureTime < 1 := by
        rw [hp, div_add_div_same, div_lt_one hct, ← mul_add]
        exact h1
      have he := captureTick_accrues cfg k T b d ht ho hc hk hlt
      have hrun : captureRun cfg k T b (d :: rest) =
          captureRun cfg k T (captureTick cfg k T b d) rest := rfl
      have ht' : (captureTick cfg k T b d).type = .outpost := by
        rw [he]; exact ht
      have ho' : T ≠ (captureTick cfg k T b d).owner := by
        rw [he]; exact ho
      have hc' : (captureTick cfg k T b d).capturingOwner = T := by
        rw [he]; exact hc
      have hprog' : (captureTick cfg k T b d).captureProgress =
          (k : ℚ) * (s + d) / cfg.captureTime := by
        rw [he]
        show b.captureProgress + (k : ℚ) * d / cfg.captureTime = _
        rw [hp, div_add_div_same, ← mul_add]
      have hpre' : ∀ n, n ≤ rest.length →
          (k : ℚ) * ((s + d) + (rest.take n).sum) < cfg.captureTime := by
        intro n hn
        have := hpre (n + 1) (by simpa using Nat.succ_le_succ hn)
        rw [List.take_succ_cons] at this
        simpa [add_assoc] using this
      obtain ⟨o1, c1, t1, p1⟩ := ih (captureTick cfg k T b d) (s + d)
        ht' ho' hc' hprog' hpre'
      rw [hrun]
      refine ⟨?_, c1, t1, ?_⟩
      · rw [o1, he]
      · rw [p1]
        congr 1
        rw [List.sum_cons]
        ring

/-- A run that starts with a fresh capturer and stays below the
threshold throughout: progress accumulates linearly from 0. -/
theorem captureRun_fresh_noflip (cfg : BaseConfig) (k : ℤ) (T : Owner)
    (hk : 1 ≤ k) (hct : 0 < cfg.captureTime) (d : ℚ) (rest : List ℚ)
    (b : Base) (htype : b.type = .outpost) (howner : T ≠ b.owner)
    (hcap : b.capturingOwner ≠ T)
    (hd : (k : ℚ) * d < cfg.captureTime)
    (hpre : ∀ n, n ≤ rest.length →
      (k : ℚ) * (d + (rest.take n).sum) < cfg.captureTime) :
    (captureRun cfg k T b (d :: rest)).owner = b.owner ∧
    (captureRun cfg k T b (d :: rest)).capturingOwner = T ∧
    (captureRun cfg k T b (d :: rest)).type = .outpost ∧
    (captureRun cfg k T b (d :: rest)).captureProgress =
      (k : ℚ) * ((d :: rest).sum) / cfg.captureTime := by
  have hlt : (k : ℚ) * d / cfg.captureTime < 1 := by
    rw [div_lt_one hct]; exact hd
  have he := captureTick_first cfg k T b d htype howner hcap hk hlt
  have hrun : captureRun cfg k T b (d :: rest) =
      captureRun cfg k T (captureTick cfg k T b d) rest := rfl
  have ht' : (captureTick cfg k T b d).type = .outpost := by
    rw [he]; exact htype
  have ho' : T ≠ (captureTick cfg k T b d).owner := by
    rw [he]; exact howner
  have hc' : (captureTick cfg k T b d).capturingOwner = T := by
    rw [he]
  have hprog' : (captureTick cfg k T b d).captureProgress =
      (k : ℚ) * d / cfg.captureTime := by
    rw [he]
    show (0 : ℚ) + (k : ℚ) * d / cfg.captureTime = _
    rw [zero_add]
  have hpre' : ∀ n, n ≤ rest.length →
      (k : ℚ) * (d + (rest.take n).sum) < cfg.captureTime := hpre
  obtain ⟨o1, c1, t1, p1⟩ := captureRun_noflip cfg k T hk hct rest
    (captureTick cfg k T b d) d ht' ho' hc' hprog' hpre'
  rw [hrun]
  refine ⟨?_, c1, t1, ?_⟩
  · rw [o1, he]
  · rw [p1, List.sum_cons]

/-- Claim C5: an Outpost owned by `O`, continuously occupied by `k ≥ 1`
infantry of a team `T ≠ O`, gains `k * dt / captureTime` capture progress
per `Update`; on the tick where the accumulated `k * Σ dt` reaches
`captureTime` (i.e. `Σ dt` reaches `captureTime / k`), ownership
transfers to `T`, progress resets to 0, the capturing owner resets to
Neutral and the occupying-infantry count resets to 0, all in that same
step. -/
theorem C5_capture_convergence (cfg : BaseConfig) (k : ℤ) (T : Owner)
    (b : Base) (dts : List ℚ) (htype : b.type = .outpost)
    (howner : T ≠ b.owner) (hcap : b.capturingOwner ≠ T)
    (hct : 0 < cfg.captureTime) (hk : 1 ≤ k) (hne : dts ≠ [])
    (hpos : ∀ dt ∈ dts, 0 < dt)
    (hpre : ∀ n, n < dts.length →
      (k : ℚ) * ((dts.take n).sum) < cfg.captureTime)
    (htot : cfg.captureTime ≤ (k : ℚ) * dts.sum) :
    (captureRun cfg k T b dts).owner = T ∧
    (captureRun cfg k T b dts).captureProgress = 0 ∧
    (captureRun cfg k T b dts).capturingOwner = Owner.neutral ∧
    (captureRun cfg k T b dts).occupyingInfantry = 0 ∧
    ∀ n, 0 < n → n < dts.length →
      (captureRun cfg k T b (dts.take n)).owner = b.owner ∧
      (captureRun cfg k T b (dts.take n)).captureProgress =
        (k : ℚ) * ((dts.take n).sum) / cfg.captureTime := by
  rcases dts with _ | ⟨d, rest⟩
  · exact absurd rfl hne
  -- the shared prefix clause, valid in both of the cases below
  have hprefix : ∀ n, 0 < n → n < (d :: rest).length →
      (captureRun cfg k T b ((d :: rest).take n)).owner = b.owner ∧
      (captureRun cfg k T b ((d :: rest).take n)).captureProgress =
        (k : ℚ) * (((d :: rest).take n).sum) / cfg.captureTime := by
    intro n hn0 hn1
    obtain ⟨m, rfl⟩ : ∃ m, n = m + 1 := ⟨n - 1, by omega⟩
    rw [List.take_succ_cons]
    have hm : m < rest.length := by
      simpa using hn1
    have hd : (k : ℚ) * d < cfg.captureTime := by
      have := hpre 1 (by simp only [List.length_cons]; omega)
      simpa using this
    have hpre' : ∀ j, j ≤ (rest.take m).length →
        (k : ℚ) * (d + ((rest.take m).take j).sum) < cfg.captureTime := by
      intro j hj
      have hjm : j ≤ m := le_trans hj (by simp)
      rw [List.take_take, min_eq_left hjm]
      have := hpre (j + 1) (by simp; omega)
      rw [List.take_succ_cons, List.sum_cons] at this
      exact this
    obtain ⟨o1, _, _, p1⟩ := captureRun_fresh_noflip cfg k T hk hct d
      (rest.take m) b htype howner hcap hd hpre'
    exact ⟨o1, by rw [p1]⟩
  by_cases hr : rest = []
  · subst hr
    have hge : 1 ≤ (k : ℚ) * d / cfg.captureTime := by
      rw [le_div_iff₀ hct, one_mul]
      simpa using htot
    have he := captureTick_first_flip cfg k T b d htype howner hcap hk hge
    have hrun : captureRun cfg k T b [d] = captureTick cfg k T b d := rfl
    rw [hrun, he]
    exact ⟨rfl, rfl, rfl, rfl, hprefix⟩
  · obtain ⟨mid, l, rfl⟩ : ∃ mid l, rest = mid ++ [l] :=
      ⟨rest.dropLast, rest.getLast hr,
        (List.dropLast_append_getLast hr).symm⟩
    have hd : (k : ℚ) * d < cfg.captureTime := by
      have := hpre 1 (by
        simp only [List.length_cons, List.length_append, List.length_nil]
        omega)
      simpa using this
    have hpremid : ∀ n, n ≤ mid.length →
        (k : ℚ) * (d + (mid.take n).sum) < cfg.captureTime := by
      intro n hn
      have := hpre (n + 1) (by simp; omega)
      rw [List.take_succ_cons, List.sum_cons,
        List.take_append_of_le_length hn] at this
      exact this
    obtain ⟨o1, c1, t1, p1⟩ := captureRun_fresh_noflip cfg k T hk hct d
      mid b htype howner hcap hd hpremid
    have hsplit : captureRun cfg k T b (d :: (mid ++ [l])) =
        captureTick cfg k T (captureRun cfg k T b (d :: mid)) l := by
      show List.foldl (captureTick cfg k T) b ((d :: mid) ++ [l]) = _
      rw [List.foldl_append]
      rfl
    set b2 := captureRun cfg k T b (d :: mid) with hb2
    have howner2 : T ≠ b2.owner := by rw [o1]; exact howner
    have hge : 1 ≤ b2.captureProgress + (k : ℚ) * l / cfg.captureTime := by
      rw [p1, div_add_div_same, ← mul_add]
      rw [le_div_iff₀ hct, one_mul]
      have hsum : (d :: mid).sum + l = (d :: (mid ++ [l])).sum := by
        simp only [List.sum_cons, List.sum_append, List.sum_nil, add_zero]
        ring
      rw [hsum]
      exact htot
    have he := captureTick_flip cfg k T b2 l t1 howner2 c1 hk hge
    rw [hsplit, he]
    exact ⟨rfl, rfl, rfl, rfl, hprefix⟩

/-- Witness for C5 at a concrete input (the spec's capture-flip scenario):
a neutral Outpost with `captureTime = 5`, one occupying Player-2 infantry,
ticks `[2.5, 2.5]` summing to 5 seconds: ownership flips to Player 2. -/
theorem C5_capture_convergence_witness :
    (captureRun DefaultBaseConfig 1 .player2
      (Base.new 1 .outpost ⟨0, 0, 0⟩ .neutral DefaultBaseConfig)
      [2.5, 2.5]).owner = Owner.player2 :=
  (C5_capture_convergence DefaultBaseConfig 1 .player2
    (Base.new 1 .outpost ⟨0, 0, 0⟩ .neutral DefaultBaseConfig) [2.5, 2.5]
    rfl (by decide) (by decide) (by norm_num [DefaultBaseConfig])
    le_rfl (by simp)
    (by
      intro dt hdt
      have hd : dt = 2.5 := by simpa using hdt
      norm_num [hd])
    (by
      intro n hn
      simp only [List.length_cons, List.length_nil] at hn
      interval_cases n <;> norm_num [DefaultBaseConfig])
    (by norm_num [DefaultBaseConfig])).1

/-- `SpendCredits` is atomic: on failure the manager is untouched; on
success only the paying player's credits change, by exactly `amount`. -/
theorem spendCredits_spec (m : BaseManager) (owner : Owner) (amount : ℚ) :
    ((m.spendCredits owner amount).1 = false →
      (m.spendCredits owner amount).2 = m) ∧
    ((m.spendCredits owner amount).1 = true →
      owner ≠ Owner.neutral ∧
      (m.spendCredits owner amount).2.bases = m.bases ∧
      (m.spendCredits owner amount).2.getCredits owner =
        m.getCredits owner - amount) := by
  rcases owner with _ | _ | _
  · exact ⟨fun _ => rfl, fun h => by simp [BaseManager.spendCredits] at h⟩
  · by_cases hc : m.player1.credits ≥ amount
    · have he : m.spendCredits .player1 amount =
          (true, { m with player1 := ⟨m.player1.credits - amount⟩ }) := by
        simp [BaseManager.spendCredits, hc]
      rw [he]
      exact ⟨fun h => by simp at h,
        fun _ => ⟨by decide, rfl, rfl⟩⟩
    · have he : m.spendCredits .player1 amount = (false, m) := by
        simp [BaseManager.spendCredits, hc]
      rw [he]
      exact ⟨fun _ => rfl, fun h => by simp at h⟩
  · by_cases hc : m.player2.credits ≥ amount
    · have he : m.spendCredits .player2 amount =
          (true, { m with player2 := ⟨m.player2.credits - amount⟩ }) := by
        simp [BaseManager.spendCredits, hc]
      rw [he]
      exact ⟨fun h => by simp at h,
        fun _ => ⟨by decide, rfl, rfl⟩⟩
    · have he : m.spendCredits .player2 amount = (false, m) := by
        simp [BaseManager.spendCredits, hc]
      rw [he]
      exact ⟨fun _ => rfl, fun h => by simp at h⟩

/-- Changing only the base list leaves every player's credit balance
unchanged. -/
theorem getCredits_set_bases (m : BaseManager) (bs : List Base)
    (o : Owner) :
    ({ m with bases := bs } : BaseManager).getCredits o =
      m.getCredits o := by
  cases o <;> rfl

/-- `findIdx?` returns the index of an element satisfying the
predicate. -/
theorem findIdx?_pred {α : Type} (p : α → Bool) :
    ∀ (l : List α) (i : ℕ) (a : α), l.findIdx? p = some i →
      l[i]? = some a → p a = true := by
  intro l
  induction l with
  | nil => intro i a h _; simp at h
  | cons x xs ih =>
      intro i a h hg
      rw [List.findIdx?_cons] at h
      split_ifs at h with hp
      · cases h
        simp at hg
        subst hg
        exact hp
      · rw [List.findIdx?_succ] at h
        rcases hxs : xs.findIdx? p with _ | j
        · rw [hxs] at h
          simp at h
        · rw [hxs] at h
          simp at h
          rw [← h] at hg
          simp at hg
          exact ih j a hxs hg

/-- Claim C7: `TryPurchaseUnit` is atomic.  When it returns `false`
(base not found, not owned by the purchaser, or insufficient credits) the
manager — credits and every spawn queue — is exactly as before; when it
returns `true`, exactly the unit's cost is deducted from the purchaser
and exactly one entry of the requested type is appended to the queue of
the base whose `ID` is the requested `baseID`. -/
theorem C7_purchase_atomic (m : BaseManager) (baseID : ℤ)
    (unitType : UnitType) (owner : Owner) :
    ((m.tryPurchaseUnit baseID unitType owner).1 = false →
      (m.tryPurchaseUnit baseID unitType owner).2 = m) ∧
    ((m.tryPurchaseUnit baseID unitType owner).1 = true →
      ∃ i base, m.bases[i]? = some base ∧ base.id = baseID ∧
        base.owner = owner ∧
        owner ≠ Owner.neutral ∧
        (m.tryPurchaseUnit baseID unitType owner).2.bases =
          m.bases.set i
            { base with spawnQueue := base.spawnQueue ++ [unitType] } ∧
        (m.tryPurchaseUnit baseID unitType owner).2.getCredits owner =
          m.getCredits owner - UnitCost unitType) := by
  rcases hf : m.bases.findIdx? (fun b => b.id == baseID) with _ | i
  · have he : m.tryPurchaseUnit baseID unitType owner = (false, m) := by
      simp [BaseManager.tryPurchaseUnit, hf]
    rw [he]
    exact ⟨fun _ => rfl, fun h => by simp at h⟩
  · rcases hg : m.bases[i]? with _ | base
    · have he : m.tryPurchaseUnit baseID unitType owner = (false, m) := by
        simp [BaseManager.tryPurchaseUnit, hf, hg]
      rw [he]
      exact ⟨fun _ => rfl, fun h => by simp at h⟩
    · by_cases ho : base.owner = owner
      · obtain ⟨hfail, hok⟩ := spendCredits_spec m owner (UnitCost unitType)
        rcases hs : (m.spendCredits owner (UnitCost unitType)).1 with _ | _
        · have he : m.tryPurchaseUnit baseID unitType owner =
              (false, (m.spendCredits owner (UnitCost unitType)).2) := by
            simp [BaseManager.tryPurchaseUnit, hf, hg, ho, hs]
          rw [he, hfail hs]
          exact ⟨fun _ => rfl, fun h => by simp at h⟩
        · obtain ⟨hneut, hbs, hcr⟩ := hok hs
          have he : m.tryPurchaseUnit baseID unitType owner =
              (true, { (m.spendCredits owner (UnitCost unitType)).2 with
                bases := (m.spendCredits owner
                  (UnitCost unitType)).2.bases.set i
                    (base.queueUnit unitType) }) := by
            simp [BaseManager.tryPurchaseUnit, hf, hg, ho, hs]
          have hq : base.queueUnit unitType =
              { base with spawnQueue := base.spawnQueue ++ [unitType] } := by
            have hone : base.owner ≠ Owner.neutral := by
              rw [ho]; exact hneut
            simp [Base.queueUnit, hone]
          have hid : base.id = baseID := by
            simpa using findIdx?_pred (fun b => b.id == baseID)
              m.bases i base hf hg
          rw [he]
          refine ⟨fun h => by simp at h, fun _ => ⟨i, base, hg, hid, ho,
            hneut, ?_, ?_⟩⟩
          · rw [hbs, hq]
          · rw [getCredits_set_bases, hcr]
      · have he : m.tryPurchaseUnit baseID unitType owner = (false, m) := by
          simp [BaseManager.tryPurchaseUnit, hf, hg, ho]
        rw [he]
        exact ⟨fun _ => rfl, fun h => by simp at h⟩

/-- Witness for C7 at a concrete input (the spec's purchase-rejection
scenario): Player 1 with 50 credits attempting to buy a 100-credit
infantry unit at their own outpost — the call fails and the manager is
bit-for-bit unchanged. -/
theorem C7_purchase_atomic_witness :
    (({ config := DefaultBaseConfig,
        bases := [Base.new 1 .outpost ⟨0, 0, 0⟩ .player1 DefaultBaseConfig],
        nextID := 2, player1 := ⟨50⟩,
        player2 := ⟨500⟩ } : BaseManager).tryPurchaseUnit 1 .infantry
          .player1).2 =
      { config := DefaultBaseConfig,
        bases := [Base.new 1 .outpost ⟨0, 0, 0⟩ .player1 DefaultBaseConfig],
        nextID := 2, player1 := ⟨50⟩, player2 := ⟨500⟩ } :=
  (C7_purchase_atomic _ 1 .infantry .player1).1 (by decide)

/-- One combat iteration never adds or removes units. -/
theorem combatOne_length (st : List Unit) (i : ℕ) :
    (combatOne st i).length = st.length := by
  unfold combatOne
  repeat' split
  all_goals simp [List.length_set]

/-- The whole combat pass never adds or removes units. -/
theorem combatGo_length (fuel : ℕ) :
    ∀ (st : List Unit) (i : ℕ), (combatGo st i fuel).length = st.length := by
  induction fuel with
  | zero => intro st i; rfl
  | succ fuel ih =>
      intro st i
      show (combatGo (combatOne st i) (i + 1) fuel).length = st.length
      rw [ih, combatOne_length]

/-- The AI pass never adds or removes units. -/
theorem mapWithIndex_length (f : ℕ → Unit → Unit) :
    ∀ (l : List Unit) (i : ℕ), (mapWithIndex f i l).length = l.length := by
  intro l
  induction l with
  | nil => intro i; rfl
  | cons u rest ih =>
      intro i
      show (f i u :: mapWithIndex f (i + 1) rest).length = rest.length + 1
      simp [ih]

/-- `Manager.Update` can only shrink the collection (units are updated in
place, targets reassigned, damage applied, dead units filtered out). -/
theorem update_count_le (m : Manager) (dt : ℚ) (unitUpdate : Unit → Unit) :
    (m.update dt unitUpdate).count ≤ m.count := by
  unfold Manager.update Manager.cleanup Manager.updateCombat
    Manager.updateAI Manager.count
  refine le_trans (List.length_filter_le _ _) ?_
  rw [combatGo_length, mapWithIndex_length, List.length_map]

/-- Claim C6: the spawn cap.  With the invariant `Count ≤ maxUnits`:
at capacity, `Spawn` (and `SpawnWithObjective`) returns nil and leaves the
manager untouched; `Spawn` and `Update` both preserve the invariant (and
the capacity itself). -/
theorem C6_spawn_cap (m : Manager) (unitType : UnitType) (team : Team)
    (pos objective : Vec3) (dt : ℚ) (unitUpdate : Unit → Unit)
    (findPath : Option ((ℚ × ℚ) → (ℚ × ℚ) → Option (List (ℚ × ℚ))))
    (hinv : m.count ≤ m.maxUnits) :
    (m.count = m.maxUnits →
      m.spawn unitType team pos = (Option.none, m) ∧
      m.spawnWithObjective unitType team pos objective findPath =
        (Option.none, m)) ∧
    (m.spawn unitType team pos).2.count ≤ m.maxUnits ∧
    (m.spawn unitType team pos).2.maxUnits = m.maxUnits ∧
    (m.update dt unitUpdate).count ≤ m.maxUnits ∧
    (m.update dt unitUpdate).maxUnits = m.maxUnits := by
  refine ⟨?_, ?_, ?_, le_trans (update_count_le m dt unitUpdate) hinv, rfl⟩
  · intro hfull
    have hge : m.units.length ≥ m.maxUnits := le_of_eq hfull.symm
    have hs : m.spawn unitType team pos = (Option.none, m) := by
      simp [Manager.spawn, hge]
    refine ⟨hs, ?_⟩
    unfold Manager.spawnWithObjective
    rw [hs]
  · by_cases hge : m.units.length ≥ m.maxUnits
    · have hs : m.spawn unitType team pos = (Option.none, m) := by
        simp [Manager.spawn, hge]
      rw [hs]
      exact hinv
    · have hs : (m.spawn unitType team pos).2.count =
          m.units.length + 1 := by
        simp [Manager.spawn, hge, Manager.count]
      rw [hs]
      omega
  · by_cases hge : m.units.length ≥ m.maxUnits <;>
      simp [Manager.spawn, hge]

/-- Witness for C6 at a concrete input: a manager with capacity 1 and one
spawned unit rejects the second spawn. -/
theorem C6_spawn_cap_witness :
    (((Manager.new 1).spawn .infantry .player ⟨0, 0, 0⟩).2.spawn .tank
        .player ⟨0, 0, 0⟩) =
      (Option.none, ((Manager.new 1).spawn .infantry .player ⟨0, 0, 0⟩).2) :=
  ((C6_spawn_cap ((Manager.new 1).spawn .infantry .player ⟨0, 0, 0⟩).2
    .tank .player ⟨0, 0, 0⟩ ⟨0, 0, 0⟩ 0 id Option.none
    (by decide)).1 (by decide)).1

/-- Claim C8, evaluated at the failing input: the victim dies during this
`Update`'s combat phase (it is present and Dead after combat), yet the
same `Update`'s cleanup phase already removes it — `GetUnits` at the end
of the death tick no longer contains the dead unit, so no one-tick grace
period exists. -/
theorem C8_cleanup_removes_same_tick :
    (victim0.isDead = false) ∧
    ((((deathTickManager.updateAI (1/10)).updateCombat (1/10)).units.map
        (fun u => (u.id, u.isDead))) = [(1, false), (2, true)]) ∧
    ((deathTickManager.update (1/10) id).getUnits.map (fun u => u.id) =
      [1]) := by
  refine ⟨by decide, ?_, ?_⟩ <;>
    (norm_num [Manager.update, Manager.updateAI, Manager.updateCombat,
      Manager.cleanup, Manager.getUnits, mapWithIndex, aiOne,
      aiFindNearest, aiFindNearestGo, combatGo, combatOne, Unit.isDead,
      Unit.canAttack, Unit.isInRange, Unit.setObjective, Unit.takeDamage,
      distSq, deathTickManager, attacker0, victim0, Unit.new, GetConfig,
      List.filter]
     try simp
     try norm_num
     try simp
     try norm_num)

/-! ### Association-list (Go map) lemmas -/
theorem mapSet_cons_eq {β : Type} (k : ℤ) (v v' : β) (rest : List (ℤ × β)) :
    mapSet ((k, v') :: rest) k v = (k, v) :: rest := by
  simp [mapSet]

theorem mapSet_cons_ne {β : Type} (k k' : ℤ) (v v' : β)
    (rest : List (ℤ × β)) (h : k' ≠ k) :
    mapSet ((k', v') :: rest) k v = (k', v') :: mapSet rest k v := by
  simp [mapSet, h]

theorem lookup_cons_self {β : Type} (k : ℤ) (v : β) (rest : List (ℤ × β)) :
    List.lookup k ((k, v) :: rest) = some v := by
  rw [List.lookup_cons]
  simp

theorem lookup_cons_ne {β : Type} (k k' : ℤ) (v : β)
    (rest : List (ℤ × β)) (h : k ≠ k') :
    List.lookup k ((k', v) :: rest) = List.lookup k rest := by
  have hb : (k == k') = false := by simpa using h
  rw [List.lookup_cons, hb]

theorem lookup_mapSet_self {β : Type} (m : List (ℤ × β)) (k : ℤ) (v : β) :
    (mapSet m k v).lookup k = some v := by
  induction m with
  | nil =>
      show List.lookup k [(k, v)] = some v
      exact lookup_cons_self k v []
  | cons e rest ih =>
      obtain ⟨k', v'⟩ := e
      by_cases h : k' = k
      · subst h
        rw [mapSet_cons_eq, lookup_cons_self]
      · rw [mapSet_cons_ne _ _ _ _ _ h,
          lookup_cons_ne _ _ _ _ (fun hh => h hh.symm)]
        exact ih

theorem lookup_mapSet_ne {β : Type} (m : List (ℤ × β)) (k : ℤ) (v : β)
    (k' : ℤ) (h : k' ≠ k) :
    (mapSet m k v).lookup k' = m.lookup k' := by
  induction m with
  | nil =>
      show List.lookup k' [(k, v)] = List.lookup k' []
      rw [lookup_cons_ne _ _ _ _ h]
  | cons e rest ih =>
      obtain ⟨k'', v''⟩ := e
      by_cases h2 : k'' = k
      · subst h2
        rw [mapSet_cons_eq, lookup_cons_ne _ _ _ _ h,
          lookup_cons_ne _ _ _ _ h]
      · rw [mapSet_cons_ne _ _ _ _ _ h2]
        by_cases h3 : k' = k''
        · subst h3
          rw [lookup_cons_self, lookup_cons_self]
        · rw [lookup_cons_ne _ _ _ _ h3, lookup_cons_ne _ _ _ _ h3]
          exact ih

theorem mem_mapSet {β : Type} (m : List (ℤ × β)) (k : ℤ) (v : β)
    (e : ℤ × β) (he : e ∈ mapSet m k v) : e = (k, v) ∨ e ∈ m := by
  induction m with
  | nil => simpa [mapSet] using he
  | cons e' rest ih =>
      obtain ⟨k', v'⟩ := e'
      by_cases h : k' = k
      · subst h
        rw [mapSet_cons_eq] at he
        rcases List.mem_cons.mp he with he | he
        · exact Or.inl he
        · exact Or.inr (List.mem_cons_of_mem _ he)
      · rw [mapSet_cons_ne _ _ _ _ _ h] at he
        rcases List.mem_cons.mp he with he | he
        · exact Or.inr (by simp [he])
        · rcases ih he with h1 | h1
          · exact Or.inl h1
          · exact Or.inr (List.mem_cons_of_mem _ h1)

theorem lookup_isSome_of_mem {β : Type} (m : List (ℤ × β)) (k : ℤ)
    (v : β) (h : (k, v) ∈ m) : (m.lookup k).isSome = true := by
  induction m with
  | nil => simp at h
  | cons e rest ih =>
      obtain ⟨k', v'⟩ := e
      by_cases h2 : k = k'
      · subst h2
        rw [lookup_cons_self]
        rfl
      · rw [lookup_cons_ne _ _ _ _ h2]
        rcases List.mem_cons.mp h with h3 | h3
        · exact absurd (congrArg Prod.fst h3) h2
        · exact ih h3

theorem mem_of_lookup_eq_some {β : Type} (m : List (ℤ × β)) (k : ℤ)
    (v : β) (h : m.lookup k = some v) : (k, v) ∈ m := by
  induction m with
  | nil => simp [List.lookup] at h
  | cons e rest ih =>
      obtain ⟨k', v'⟩ := e
      by_cases h2 : k = k'
      · subst h2
        rw [lookup_cons_self] at h
        cases h
        exact List.mem_cons_self _ _
      · rw [lookup_cons_ne _ _ _ _ h2] at h
        exact List.mem_cons_of_mem _ (ih h)

theorem keysNodup_mapSet {β : Type} (m : List (ℤ × β)) (k : ℤ) (v : β)
    (h : (m.map Prod.fst).Nodup) :
    ((mapSet m k v).map Prod.fst).Nodup := by
  induction m with
  | nil => simp [mapSet]
  | cons e rest ih =>
      obtain ⟨k', v'⟩ := e
      simp only [List.map_cons, List.nodup_cons] at h
      by_cases h2 : k' = k
      · subst h2
        rw [mapSet_cons_eq]
        simp only [List.map_cons, List.nodup_cons]
        exact h
      · rw [mapSet_cons_ne _ _ _ _ _ h2]
        simp only [List.map_cons, List.nodup_cons]
        refine ⟨?_, ih h.2⟩
        intro hmem
        rcases List.mem_map.mp hmem with ⟨e2, he2, hfst⟩
        rcases mem_mapSet rest k v e2 he2 with h3 | h3
        · exact h2 (by rw [← hfst, h3])
        · exact h.1 (List.mem_map.mpr ⟨e2, h3, hfst⟩)

theorem length_mapSet_of_lookup_some {β : Type} (m : List (ℤ × β))
    (k : ℤ) (v : β) (h : (m.lookup k).isSome = true) :
    (mapSet m k v).length = m.length := by
  induction m with
  | nil => simp [List.lookup] at h
  | cons e rest ih =>
      obtain ⟨k', v'⟩ := e
      by_cases h2 : k' = k
      · subst h2
        rw [mapSet_cons_eq]
        simp
      · rw [lookup_cons_ne _ _ _ _ (fun hh => h2 hh.symm)] at h
        rw [mapSet_cons_ne _ _ _ _ _ h2]
        simp only [List.length_cons]
        rw [ih h]

theorem length_mapSet_of_lookup_none {β : Type} (m : List (ℤ × β))
    (k : ℤ) (v : β) (h : m.lookup k = Option.none) :
    (mapSet m k v).length = m.length + 1 := by
  induction m with
  | nil => simp [mapSet]
  | cons e rest ih =>
      obtain ⟨k', v'⟩ := e
      by_cases h2 : k = k'
      · subst h2
        rw [lookup_cons_self] at h
        cases h
      · rw [lookup_cons_ne _ _ _ _ h2] at h
        rw [mapSet_cons_ne _ _ _ _ _ (fun hh => h2 hh.symm)]
        simp only [List.length_cons]
        rw [ih h]

theorem sum_mapSet_of_lookup_some (m : List (ℤ × ℕ)) (k : ℤ) (v w : ℕ)
    (h : m.lookup k = some w) :
    ((mapSet m k v).map Prod.snd).sum + w = (m.map Prod.snd).sum + v := by
  induction m with
  | nil => simp [List.lookup] at h
  | cons e rest ih =>
      obtain ⟨k', v'⟩ := e
      by_cases h2 : k = k'
      · subst h2
        rw [lookup_cons_self] at h
        cases h
        rw [mapSet_cons_eq]
        simp only [List.map_cons, List.sum_cons]
        omega
      · rw [lookup_cons_ne _ _ _ _ h2] at h
        rw [mapSet_cons_ne _ _ _ _ _ (fun hh => h2 hh.symm)]
        simp only [List.map_cons, List.sum_cons]
        have := ih h
        omega

theorem sum_mapSet_of_lookup_none (m : List (ℤ × ℕ)) (k : ℤ) (v : ℕ)
    (h : m.lookup k = Option.none) :
    ((mapSet m k v).map Prod.snd).sum = (m.map Prod.snd).sum + v := by
  induction m with
  | nil => simp [mapSet]
  | cons e rest ih =>
      obtain ⟨k', v'⟩ := e
      by_cases h2 : k = k'
      · subst h2
        rw [lookup_cons_self] at h
        cases h
      · rw [lookup_cons_ne _ _ _ _ h2] at h
        rw [mapSet_cons_ne _ _ _ _ _ (fun hh => h2 hh.symm)]
        simp only [List.map_cons, List.sum_cons]
        rw [ih h]
        omega

/-! ### List index/permutation helpers for the binary heap -/
theorem getD_set_self {α : Type} (l : List α) (i : ℕ) (a d : α)
    (h : i < l.length) : (l.set i a).getD i d = a := by
  rw [List.getD_eq_getElem?_getD, List.getElem?_set_self (by omega)]
  rfl

theorem getD_set_ne {α : Type} (l : List α) (i j : ℕ) (a d : α)
    (h : i ≠ j) : (l.set i a).getD j d = l.getD j d := by
  rw [List.getD_eq_getElem?_getD, List.getElem?_set_ne h,
    ← List.getD_eq_getElem?_getD]

theorem getD_append_left {α : Type} (l l' : List α) (i : ℕ) (d : α)
    (h : i < l.length) : (l ++ l').getD i d = l.getD i d := by
  rw [List.getD_eq_getElem?_getD, List.getElem?_append_left h,
    ← List.getD_eq_getElem?_getD]

theorem getD_take {α : Type} (l : List α) (n i : ℕ) (d : α)
    (h : i < n) : (l.take n).getD i d = l.getD i d := by
  rw [List.getD_eq_getElem?_getD, List.getElem?_take_of_lt h,
    ← List.getD_eq_getElem?_getD]

theorem cons_set_perm {α : Type} (d : α) :
    ∀ (xs : List α) (m : ℕ) (x : α), m < xs.length →
      List.Perm (xs.getD m d :: xs.set m x) (x :: xs) := by
  intro xs
  induction xs with
  | nil => intro m x h; simp at h
  | cons y ys ih =>
      intro m x h
      cases m with
      | zero =>
          show List.Perm (y :: x :: ys) (x :: y :: ys)
          exact List.Perm.swap x y ys
      | succ k =>
          have hk : k < ys.length := by simpa using h
          show List.Perm (ys.getD k d :: y :: ys.set k x) (x :: y :: ys)
          have s1 : List.Perm (ys.getD k d :: y :: ys.set k x)
              (y :: ys.getD k d :: ys.set k x) := List.Perm.swap _ _ _
          have s2 : List.Perm (y :: ys.getD k d :: ys.set k x)
              (y :: x :: ys) := (ih k x hk).cons y
          have s3 : List.Perm (y :: x :: ys) (x :: y :: ys) :=
            List.Perm.swap x y ys
          exact (s1.trans s2).trans s3

theorem swap_set_perm {α : Type} (d : α) :
    ∀ (l : List α) (i j : ℕ), i < l.length → j < l.length →
      List.Perm ((l.set i (l.getD j d)).set j (l.getD i d)) l := by
  intro l
  induction l with
  | nil => intro i j hi _; simp at hi
  | cons x xs ih =>
      intro i j hi hj
      cases i with
      | zero =>
          cases j with
          | zero =>
              show List.Perm ((x :: xs).set 0 x) (x :: xs)
              exact List.Perm.refl _
          | succ m =>
              have hm : m < xs.length := by simpa using hj
              show List.Perm (xs.getD m d :: xs.set m x) (x :: xs)
              exact cons_set_perm d xs m x hm
      | succ n =>
          have hn : n < xs.length := by simpa using hi
          cases j with
          | zero =>
              show List.Perm (xs.getD n d :: xs.set n x) (x :: xs)
              exact cons_set_perm d xs n x hn
          | succ m =>
              have hm : m < xs.length := by simpa using hj
              show List.Perm
                (x :: (xs.set n (xs.getD m d)).set m (xs.getD n d))
                (x :: xs)
              exact (ih n m hn hm).cons x

theorem length_hSwap (l : List Node) (i j : ℕ) :
    (hSwap l i j).length = l.length := by
  simp [hSwap]

theorem hSwap_perm (l : List Node) (i j : ℕ) (hi : i < l.length)
    (hj : j < l.length) : List.Perm (hSwap l i j) l :=
  swap_set_perm _ l i j hi hj

theorem hGet_hSwap_snd (l : List Node) (i j : ℕ) (hi : i < l.length)
    (hj : j < l.length) : hGet (hSwap l i j) j = hGet l i := by
  unfold hSwap hGet
  exact getD_set_self _ j _ _ (by simpa using hj)

theorem hGet_hSwap_fst (l : List Node) (i j : ℕ) (hi : i < l.length)
    (hij : i ≠ j) : hGet (hSwap l i j) i = hGet l j := by
  unfold hSwap hGet
  rw [getD_set_ne _ _ _ _ _ (fun hh => hij hh.symm)]
  exact getD_set_self _ i _ _ hi

theorem hGet_hSwap_other (l : List Node) (i j k : ℕ) (hki : k ≠ i)
    (hkj : k ≠ j) : hGet (hSwap l i j) k = hGet l k := by
  unfold hSwap hGet
  rw [getD_set_ne _ _ _ _ _ (fun hh => hkj hh.symm),
    getD_set_ne _ _ _ _ _ (fun hh => hki hh.symm)]

theorem hGet_eq_getElem (l : List Node) (i : ℕ) (h : i < l.length) :
    hGet l i = l[i] := by
  unfold hGet
  rw [List.getD_eq_getElem?_getD, List.getElem?_eq_getElem h]
  rfl

theorem heapUp_spec : ∀ (j : ℕ) (l : List Node), j < l.length →
    UpInv l j →
    HeapProp (heapUp l j) ∧ List.Perm (heapUp l j) l ∧
    (heapUp l j).length = l.length := by
  intro j
  induction j using Nat.strong_induction_on with
  | h j ih =>
      intro l hj hinv
      rw [heapUp]
      by_cases h0 : j = 0
      · rw [if_pos h0]
        subst h0
        refine ⟨?_, List.Perm.refl l, rfl⟩
        intro k hk0 hklen
        exact hinv.1 k hk0 hklen (by omega)
      · rw [if_neg h0]
        dsimp only
        by_cases hless :
            nodeLess (hGet l j) (hGet l ((j - 1) / 2)) = true
        · rw [if_pos hless]
          set i := (j - 1) / 2 with hidef
          have hij : i < j := by omega
          have hil : i < l.length := lt_trans hij hj
          have hlen : (hSwap l i j).length = l.length := length_hSwap l i j
          have hperm : List.Perm (hSwap l i j) l := hSwap_perm l i j hil hj
          have hlt : (hGet l j).f < (hGet l i).f := by
            simpa [nodeLess] using hless
          have gj : hGet (hSwap l i j) j = hGet l i :=
            hGet_hSwap_snd l i j hil hj
          have gi : hGet (hSwap l i j) i = hGet l j :=
            hGet_hSwap_fst l i j hil (by omega)
          have go : ∀ k, k ≠ i → k ≠ j → hGet (hSwap l i j) k = hGet l k :=
            fun k h1 h2 => hGet_hSwap_other l i j k h1 h2
          have hinv2 : UpInv (hSwap l i j) i := by
            constructor
            · intro k hk0 hklen hki
              rw [hlen] at hklen
              by_cases hkj : k = j
              · have hpj : (k - 1) / 2 = i := by rw [hkj]
                rw [hpj, gi, hkj, gj]
                exact hlt.le
              · by_cases hpk_i : (k - 1) / 2 = i
                · rw [hpk_i, gi, go k hki hkj]
                  have h1 : (hGet l i).f ≤ (hGet l k).f := by
                    have h2 := hinv.1 k hk0 hklen hkj
                    rwa [hpk_i] at h2
                  exact le_trans hlt.le h1
                · by_cases hpk_j : (k - 1) / 2 = j
                  · rw [hpk_j, gj, go k hki hkj]
                    exact hinv.2 k hk0 hklen hpk_j (by omega)
                  · rw [go _ hpk_i hpk_j, go k hki hkj]
                    exact hinv.1 k hk0 hklen hkj
            · intro c hc0 hclen hpc hi0
              rw [hlen] at hclen
              have gpi : hGet (hSwap l i j) ((i - 1) / 2) =
                  hGet l ((i - 1) / 2) := go _ (by omega) (by omega)
              rw [gpi]
              by_cases hcj : c = j
              · rw [hcj, gj]
                exact hinv.1 i hi0 hil (by omega)
              · have hci : c ≠ i := by omega
                rw [go c hci hcj]
                have h1 : (hGet l ((i - 1) / 2)).f ≤ (hGet l i).f :=
                  hinv.1 i hi0 hil (by omega)
                have h2 : (hGet l i).f ≤ (hGet l c).f := by
                  have h3 := hinv.1 c hc0 hclen hcj
                  rwa [hpc] at h3
                exact le_trans h1 h2
          obtain ⟨hp, hperm2, hlen2⟩ :=
            ih i hij (hSwap l i j) (by omega) hinv2
          exact ⟨hp, hperm2.trans hperm, by rw [hlen2, hlen]⟩
        · rw [if_neg hless]
          refine ⟨?_, List.Perm.refl l, rfl⟩
          intro k hk0 hklen
          by_cases hkj : k = j
          · have hge : ¬ (hGet l j).f < (hGet l ((j - 1) / 2)).f := by
              simpa [nodeLess] using hless
            rw [hkj]
            omega
          · exact hinv.1 k hk0 hklen hkj

theorem heapDown_spec (n : ℕ) : ∀ (d i : ℕ) (l : List Node),
    n - i ≤ d → n ≤ l.length → DownInv l i n →
    HeapPropN (heapDown l i n) n ∧ List.Perm (heapDown l i n) l ∧
    (∀ k, n ≤ k → hGet (heapDown l i n) k = hGet l k) ∧
    (heapDown l i n).length = l.length := by
  intro d
  induction d with
  | zero =>
      intro i l hd hn hinv
      rw [heapDown]
      dsimp only
      have hj1 : 2 * i + 1 ≥ n := by omega
      rw [if_pos hj1]
      refine ⟨?_, List.Perm.refl _, fun k _ => rfl, rfl⟩
      intro k hk0 hkn
      exact hinv.1 k hk0 hkn (by omega)
  | succ d ih =>
      intro i l hd hn hinv
      rw [heapDown]
      dsimp only
      by_cases hj1 : 2 * i + 1 ≥ n
      · rw [if_pos hj1]
        refine ⟨?_, List.Perm.refl _, fun k _ => rfl, rfl⟩
        intro k hk0 hkn
        by_cases hpki : (k - 1) / 2 = i
        · omega
        · exact hinv.1 k hk0 hkn hpki
      · rw [if_neg hj1]
        set j := if 2 * i + 2 < n ∧
            nodeLess (hGet l (2 * i + 2)) (hGet l (2 * i + 1)) = true
          then 2 * i + 2 else 2 * i + 1 with hjdef
        have hjn : j < n := by
          rw [hjdef]; split_ifs <;> omega
        have hij : i < j := by
          rw [hjdef]; split_ifs <;> omega
        have hjchar : j = 2 * i + 1 ∨ j = 2 * i + 2 := by
          rw [hjdef]; split_ifs <;> omega
        have hjmin1 : (hGet l j).f ≤ (hGet l (2 * i + 1)).f := by
          rw [hjdef]; split_ifs with hc
          · have h2 := hc.2
            simp only [nodeLess, decide_eq_true_eq] at h2
            exact h2.le
          · exact le_refl _
        have hjmin2 : 2 * i + 2 < n →
            (hGet l j).f ≤ (hGet l (2 * i + 2)).f := by
          intro h2
          rw [hjdef]; split_ifs with hc
          · exact le_refl _
          · have h3 : ¬ nodeLess (hGet l (2 * i + 2))
                (hGet l (2 * i + 1)) = true := fun hh => hc ⟨h2, hh⟩
            simp only [nodeLess, decide_eq_true_eq] at h3
            omega
        by_cases hless : nodeLess (hGet l j) (hGet l i) = true
        · rw [if_pos hless]
          have hil : i < l.length := by omega
          have hjl : j < l.length := by omega
          have hlen : (hSwap l i j).length = l.length := length_hSwap l i j
          have hperm : List.Perm (hSwap l i j) l := hSwap_perm l i j hil hjl
          have hlt : (hGet l j).f < (hGet l i).f := by
            simpa [nodeLess] using hless
          have gj : hGet (hSwap l i j) j = hGet l i :=
            hGet_hSwap_snd l i j hil hjl
          have gi : hGet (hSwap l i j) i = hGet l j :=
            hGet_hSwap_fst l i j hil (by omega)
          have go : ∀ k, k ≠ i → k ≠ j → hGet (hSwap l i j) k = hGet l k :=
            fun k h1 h2 => hGet_hSwap_other l i j k h1 h2
          have hinv2 : DownInv (hSwap l i j) j n := by
            constructor
            · intro k hk0 hkn hpkj
              by_cases hkj : k = j
              · have hpj : (k - 1) / 2 = i := by omega
                rw [hpj, gi, hkj, gj]
                exact hlt.le
              · by_cases hpki : (k - 1) / 2 = i
                · have hki : k ≠ i := by omega
                  rw [hpki, gi, go k hki hkj]
                  rcases (by omega : k = 2 * i + 1 ∨ k = 2 * i + 2) with
                    hk | hk
                  · rw [hk]; exact hjmin1
                  · rw [hk]; exact hjmin2 (by omega)
                · by_cases hki : k = i
                  · have hi0 : 0 < i := by omega
                    have hg1 : hGet (hSwap l i j) ((k - 1) / 2) =
                        hGet l ((k - 1) / 2) := go _ (by omega) (by omega)
                    rw [hg1, hki, gi]
                    exact hinv.2 j (by omega) hjn (by omega) hi0
                  · rw [go _ hpki hpkj, go k hki hkj]
                    exact hinv.1 k hk0 hkn hpki
            · intro c hc0 hcn hpc hj0
              have hpj : (j - 1) / 2 = i := by omega
              rw [hpj, gi]
              have hcj : c ≠ j := by omega
              have hci : c ≠ i := by omega
              rw [go c hci hcj]
              have h1 := hinv.1 c hc0 hcn (by omega)
              rwa [hpc] at h1
          obtain ⟨hp2, hperm2, huntouched2, hlen2⟩ :=
            ih j (hSwap l i j) (by omega) (by omega) hinv2
          refine ⟨hp2, hperm2.trans hperm, ?_, by rw [hlen2, hlen]⟩
          intro k hk
          rw [huntouched2 k hk, go k (by omega) (by omega)]
        · rw [if_neg hless]
          refine ⟨?_, List.Perm.refl _, fun k _ => rfl, rfl⟩
          intro k hk0 hkn
          by_cases hpki : (k - 1) / 2 = i
          · have hile : (hGet l i).f ≤ (hGet l j).f := by
              have h2 : ¬ (hGet l j).f < (hGet l i).f := by
                simpa [nodeLess] using hless
              omega
            rw [hpki]
            rcases (by omega : k = 2 * i + 1 ∨ k = 2 * i + 2) with hk | hk
            · rw [hk]; exact le_trans hile hjmin1
            · rw [hk]; exact le_trans hile (hjmin2 (by omega))
          · exact hinv.1 k hk0 hkn hpki

theorem hGet_append_left (l1 l2 : List Node) (i : ℕ)
    (h : i < l1.length) : hGet (l1 ++ l2) i = hGet l1 i := by
  unfold hGet
  exact getD_append_left l1 l2 i _ h

theorem heapPush_spec (l : List Node) (nd : Node) (hp : HeapProp l) :
    HeapProp (heapPush l nd) ∧
    List.Perm (heapPush l nd) (l ++ [nd]) ∧
    (heapPush l nd).length = l.length + 1 := by
  unfold heapPush
  have hlen : (l ++ [nd]).length = l.length + 1 := by simp
  have hinv : UpInv (l ++ [nd]) l.length := by
    constructor
    · intro k hk0 hklen hkj
      rw [hlen] at hklen
      have hk : k < l.length := by omega
      rw [hGet_append_left l [nd] k hk,
        hGet_append_left l [nd] _ (by omega)]
      exact hp k hk0 hk
    · intro c hc0 hclen hpc hj0
      rw [hlen] at hclen
      omega
  obtain ⟨h1, h2, h3⟩ := heapUp_spec l.length (l ++ [nd]) (by omega) hinv
  exact ⟨h1, h2, by rw [h3, hlen]⟩

theorem heapProp_root_le (l : List Node) (hp : HeapProp l) :
    ∀ k, k < l.length → (hGet l 0).f ≤ (hGet l k).f := by
  intro k
  induction k using Nat.strong_induction_on with
  | h k ih =>
      intro hk
      by_cases h0 : k = 0
      · rw [h0]
      · have h1 := hp k (by omega) hk
        have h2 := ih ((k - 1) / 2) (by omega)
          (lt_trans (by omega : (k - 1) / 2 < k) hk)
        exact le_trans h2 h1

theorem heapPop_spec (l : List Node) (hne : l ≠ []) (hp : HeapProp l) :
    (heapPop l).1 = hGet l 0 ∧
    List.Perm ((heapPop l).1 :: (heapPop l).2) l ∧
    HeapProp (heapPop l).2 ∧
    (heapPop l).2.length = l.length - 1 := by
  have hlpos : 0 < l.length := List.length_pos.mpr hne
  simp only [heapPop]
  set n := l.length - 1 with hndef
  have hnl : n < l.length := by omega
  have hlen1 : (hSwap l 0 n).length = l.length := length_hSwap l 0 n
  have hinv : DownInv (hSwap l 0 n) 0 n := by
    constructor
    · intro k hk0 hkn hpk
      rw [hGet_hSwap_other l 0 n ((k - 1) / 2) (by omega) (by omega),
        hGet_hSwap_other l 0 n k (by omega) (by omega)]
      exact hp k hk0 (by omega)
    · intro c hc0 hcn hpc hi0
      omega
  obtain ⟨hpN, hperm, huntouched, hlen2⟩ :=
    heapDown_spec n n 0 (hSwap l 0 n) (by omega) (by omega) hinv
  have hl2len : (heapDown (hSwap l 0 n) 0 n).length = l.length := by
    rw [hlen2, hlen1]
  have hroot : hGet (heapDown (hSwap l 0 n) 0 n) n = hGet l 0 := by
    rw [huntouched n (le_refl n)]
    exact hGet_hSwap_snd l 0 n hlpos hnl
  refine ⟨hroot, ?_, ?_, ?_⟩
  · have hsplit : (heapDown (hSwap l 0 n) 0 n).take n ++
        (heapDown (hSwap l 0 n) 0 n).drop n =
        heapDown (hSwap l 0 n) 0 n := List.take_append_drop _ _
    have hnlt : n < (heapDown (hSwap l 0 n) 0 n).length := by omega
    have hdrop : (heapDown (hSwap l 0 n) 0 n).drop n =
        [(heapDown (hSwap l 0 n) 0 n)[n]] := by
      rw [List.drop_eq_getElem_cons hnlt]
      congr 1
      have hq : n + 1 = (heapDown (hSwap l 0 n) 0 n).length := by omega
      rw [hq, List.drop_length]
    have helem : (heapDown (hSwap l 0 n) 0 n)[n] =
        hGet (heapDown (hSwap l 0 n) 0 n) n :=
      (hGet_eq_getElem _ n hnlt).symm
    have hx : heapDown (hSwap l 0 n) 0 n =
        (heapDown (hSwap l 0 n) 0 n).take n ++
          [hGet (heapDown (hSwap l 0 n) 0 n) n] := by
      conv_lhs => rw [← hsplit]
      rw [hdrop]
      congr 1
      rw [helem]
    have h2 : List.Perm
        (hGet (heapDown (hSwap l 0 n) 0 n) n ::
          (heapDown (hSwap l 0 n) 0 n).take n)
        (heapDown (hSwap l 0 n) 0 n) := by
      conv_rhs => rw [hx]
      exact (List.perm_append_singleton _ _).symm
    exact h2.trans (hperm.trans (hSwap_perm l 0 n hlpos hnl))
  · intro k hk0 hklen
    have hkn : k < n := by
      have hq : ((heapDown (hSwap l 0 n) 0 n).take n).length = n := by
        rw [List.length_take]
        omega
      omega
    have ht1 : hGet ((heapDown (hSwap l 0 n) 0 n).take n) k =
        hGet (heapDown (hSwap l 0 n) 0 n) k := getD_take _ n k _ hkn
    have ht2 : hGet ((heapDown (hSwap l 0 n) 0 n).take n) ((k - 1) / 2) =
        hGet (heapDown (hSwap l 0 n) 0 n) ((k - 1) / 2) :=
      getD_take _ n _ _ (by omega)
    rw [ht1, ht2]
    exact hpN k hk0 hkn
  · rw [List.length_take]
    omega

theorem heapPop_min (l : List Node) (hne : l ≠ []) (hp : HeapProp l) :
    ∀ nd ∈ l, ((heapPop l).1).f ≤ nd.f := by
  intro nd hmem
  obtain ⟨k, hk, hnd⟩ := List.mem_iff_getElem.mp hmem
  have h1 := heapProp_root_le l hp k hk
  rw [hGet_eq_getElem l k hk, hnd] at h1
  rw [(heapPop_spec l hne hp).1]
  exact h1

theorem free_bounds (p : Pathfinder) (c : ℤ × ℤ) (h : p.free c) :
    0 ≤ c.1 ∧ c.1 < (p.width : ℤ) ∧ 0 ≤ c.2 ∧ c.2 < (p.height : ℤ) := by
  unfold Pathfinder.free Pathfinder.isBlocked at h
  split_ifs at h with hc
  all_goals try simp at h
  all_goals omega

theorem key_inj (p : Pathfinder) (c c2 : ℤ × ℤ)
    (h1 : p.free c) (h2 : p.free c2)
    (hk : key p c.1 c.2 = key p c2.1 c2.2) : c = c2 := by
  obtain ⟨a1, a2, a3, a4⟩ := free_bounds p c h1
  obtain ⟨b1, b2, b3, b4⟩ := free_bounds p c2 h2
  obtain ⟨x1, y1⟩ := c
  obtain ⟨x2, y2⟩ := c2
  simp only [] at a1 a2 a3 a4 b1 b2 b3 b4
  unfold key at hk
  simp only [] at hk
  have hw : (0 : ℤ) < p.width := by omega
  have hy : y1 = y2 := by
    rcases lt_trichotomy y1 y2 with hlt | heq | hgt
    · exfalso
      have h5 : y1 + 1 ≤ y2 := hlt
      have h6 : (y1 + 1) * (p.width : ℤ) ≤ y2 * (p.width : ℤ) :=
        mul_le_mul_of_nonneg_right h5 (le_of_lt hw)
      rw [add_mul, one_mul] at h6
      linarith
    · exact heq
    · exfalso
      have h5 : y2 + 1 ≤ y1 := hgt
      have h6 : (y2 + 1) * (p.width : ℤ) ≤ y1 * (p.width : ℤ) :=
        mul_le_mul_of_nonneg_right h5 (le_of_lt hw)
      rw [add_mul, one_mul] at h6
      linarith
  have hx : x1 = x2 := by
    rw [hy] at hk
    exact add_left_cancel hk
  rw [hx, hy]

theorem key_range (p : Pathfinder) (c : ℤ × ℤ) (h : p.free c) :
    0 ≤ key p c.1 c.2 ∧
      key p c.1 c.2 < (p.width : ℤ) * (p.height : ℤ) := by
  obtain ⟨a1, a2, a3, a4⟩ := free_bounds p c h
  unfold key
  constructor
  · have h5 : 0 ≤ c.2 * (p.width : ℤ) := mul_nonneg a3 (by linarith)
    linarith
  · have h5 : c.2 + 1 ≤ (p.height : ℤ) := by omega
    have h6 : (c.2 + 1) * (p.width : ℤ) ≤
        (p.height : ℤ) * (p.width : ℤ) :=
      mul_le_mul_of_nonneg_right h5 (by linarith)
    rw [add_mul, one_mul] at h6
    have h7 : (p.height : ℤ) * p.width = (p.width : ℤ) * p.height :=
      mul_comm _ _
    linarith

theorem gmap_length_le (p : Pathfinder) (m : List (ℤ × ℕ))
    (hwf : ∀ kk v, m.lookup kk = some v →
      ∃ c : ℤ × ℤ, kk = key p c.1 c.2 ∧ p.free c)
    (hnd : (m.map Prod.fst).Nodup) :
    m.length ≤ p.width * p.height := by
  have hsub : (m.map Prod.fst).toFinset ⊆
      Finset.Ico (0 : ℤ) ((p.width : ℤ) * p.height) := by
    intro kk hkk
    obtain ⟨e, hem, hfst⟩ := List.mem_map.mp (List.mem_toFinset.mp hkk)
    obtain ⟨v, hv⟩ := Option.isSome_iff_exists.mp
      (lookup_isSome_of_mem m e.1 e.2 hem)
    rw [hfst] at hv
    obtain ⟨c, hkey, hfree⟩ := hwf kk v hv
    obtain ⟨hr1, hr2⟩ := key_range p c hfree
    rw [Finset.mem_Ico, hkey]
    exact ⟨hr1, hr2⟩
  have h1 : (m.map Prod.fst).toFinset.card = (m.map Prod.fst).length :=
    List.toFinset_card_of_nodup hnd
  have h3 := Finset.card_le_card hsub
  rw [h1, List.length_map] at h3
  calc m.length ≤ (Finset.Ico (0 : ℤ) ((p.width : ℤ) * p.height)).card :=
        h3
    _ = p.width * p.height := by
        rw [Int.card_Ico]
        rw [sub_zero, ← Nat.cast_mul, Int.toNat_natCast]

theorem heuristic_self (gx gy : ℤ) : heuristic gx gy gx gy = 0 := by
  unfold heuristic
  simp

theorem heuristic_consistent (a b : ℤ × ℤ) (gx gy : ℤ)
    (hx : (b.1 - a.1).natAbs ≤ 1) (hy : (b.2 - a.2).natAbs ≤ 1) :
    heuristic a.1 a.2 gx gy ≤ stepCost a b + heuristic b.1 b.2 gx gy := by
  unfold heuristic stepCost
  dsimp only
  split_ifs with hc <;> omega

theorem stepCost_ge (a b : ℤ × ℤ) : 100 ≤ stepCost a b := by
  unfold stepCost
  split_ifs <;> omega

theorem stepCost_le (a b : ℤ × ℤ) : stepCost a b ≤ 141 := by
  unfold stepCost
  split_ifs <;> omega

theorem dir_facts : ∀ d ∈ dirs, 100 ≤ d.cost ∧ d.cost ≤ 141 ∧
    d.dx.natAbs ≤ 1 ∧ d.dy.natAbs ≤ 1 ∧ ¬(d.dx = 0 ∧ d.dy = 0) ∧
    (d.diag = true ↔ (d.dx ≠ 0 ∧ d.dy ≠ 0)) ∧
    (∀ a : ℤ × ℤ, stepCost a (a.1 + d.dx, a.2 + d.dy) = d.cost) := by
  intro d hd
  unfold dirs at hd
  simp only [List.mem_cons, List.not_mem_nil, or_false] at hd
  rcases hd with rfl | rfl | rfl | rfl | rfl | rfl | rfl | rfl <;>
    refine ⟨by decide, by decide, by decide, by decide, by decide,
      by decide, ?_⟩ <;>
    (intro a
     unfold stepCost
     dsimp only
     split_ifs with h <;> omega)

theorem validStep_dir (p : Pathfinder) (a b : ℤ × ℤ) (h : ValidStep p a b) :
    ∃ d ∈ dirs, b.1 = a.1 + d.dx ∧ b.2 = a.2 + d.dy ∧
      d.cost = stepCost a b ∧
      (d.diag = true ↔ (b.1 ≠ a.1 ∧ b.2 ≠ a.2)) := by
  obtain ⟨hfa, hfb, hne, hx, hy, hcorner⟩ := h
  obtain ⟨a1, a2⟩ := a
  obtain ⟨b1, b2⟩ := b
  simp only [] at hx hy ⊢
  have hne2 : ¬ (b1 - a1 = 0 ∧ b2 - a2 = 0) := by
    intro hz
    apply hne
    have e1 : a1 = b1 := by omega
    have e2 : a2 = b2 := by omega
    rw [e1, e2]
  have hx3 : b1 - a1 = -1 ∨ b1 - a1 = 0 ∨ b1 - a1 = 1 := by omega
  have hy3 : b2 - a2 = -1 ∨ b2 - a2 = 0 ∨ b2 - a2 = 1 := by omega
  have hcost : ∀ cv : ℕ,
      ((b1 ≠ a1 ∧ b2 ≠ a2) → cv = 141) →
      (¬ (b1 ≠ a1 ∧ b2 ≠ a2) → cv = 100) →
      cv = stepCost (a1, a2) (b1, b2) := by
    intro cv hd hc
    unfold stepCost
    dsimp only
    split_ifs with hcnd
    · exact hd (by omega)
    · exact hc (by omega)
  rcases hx3 with h1 | h1 | h1 <;> rcases hy3 with h2 | h2 | h2
  · exact ⟨⟨-1, -1, 141, true⟩, by decide, by dsimp only; omega, by dsimp only; omega,
      hcost 141 (fun _ => rfl) (fun hh => absurd ⟨by omega, by omega⟩ hh),
      by constructor <;> intro <;> [omega; rfl]⟩
  · exact ⟨⟨-1, 0, 100, false⟩, by decide, by dsimp only; omega, by dsimp only; omega,
      hcost 100 (fun hh => absurd hh (by omega)) (fun _ => rfl),
      by constructor <;> intro h3 <;> [cases h3; omega]⟩
  · exact ⟨⟨-1, 1, 141, true⟩, by decide, by dsimp only; omega, by dsimp only; omega,
      hcost 141 (fun _ => rfl) (fun hh => absurd ⟨by omega, by omega⟩ hh),
      by constructor <;> intro <;> [omega; rfl]⟩
  · exact ⟨⟨0, -1, 100, false⟩, by decide, by dsimp only; omega, by dsimp only; omega,
      hcost 100 (fun hh => absurd hh (by omega)) (fun _ => rfl),
      by constructor <;> intro h3 <;> [cases h3; omega]⟩
  · exact absurd ⟨h1, h2⟩ hne2
  · exact ⟨⟨0, 1, 100, false⟩, by decide, by dsimp only; omega, by dsimp only; omega,
      hcost 100 (fun hh => absurd hh (by omega)) (fun _ => rfl),
      by constructor <;> intro h3 <;> [cases h3; omega]⟩
  · exact ⟨⟨1, -1, 141, true⟩, by decide, by dsimp only; omega, by dsimp only; omega,
      hcost 141 (fun _ => rfl) (fun hh => absurd ⟨by omega, by omega⟩ hh),
      by constructor <;> intro <;> [omega; rfl]⟩
  · exact ⟨⟨1, 0, 100, false⟩, by decide, by dsimp only; omega, by dsimp only; omega,
      hcost 100 (fun hh => absurd hh (by omega)) (fun _ => rfl),
      by constructor <;> intro h3 <;> [cases h3; omega]⟩
  · exact ⟨⟨1, 1, 141, true⟩, by decide, by dsimp only; omega, by dsimp only; omega,
      hcost 141 (fun _ => rfl) (fun hh => absurd ⟨by omega, by omega⟩ hh),
      by constructor <;> intro <;> [omega; rfl]⟩

theorem dir_validStep (p : Pathfinder) (cx cy : ℤ) (d : Dir)
    (hd : d ∈ dirs) (hfc : p.free (cx, cy))
    (hnb : p.isBlocked (cx + d.dx) (cy + d.dy) = false)
    (hcg : ¬(d.diag = true ∧ (p.isBlocked (cx + d.dx) cy = true ∨
      p.isBlocked cx (cy + d.dy) = true))) :
    ValidStep p (cx, cy) (cx + d.dx, cy + d.dy) := by
  obtain ⟨hc1, hc2, hax, hay, hnz, hdiag, hsc⟩ := dir_facts d hd
  refine ⟨hfc, hnb, ?_, ?_, ?_, ?_⟩
  · intro heq
    have e1 : cx = cx + d.dx := congrArg Prod.fst heq
    have e2 : cy = cy + d.dy := congrArg Prod.snd heq
    exact hnz ⟨by omega, by omega⟩
  · simp only []
    have e1 : cx + d.dx - cx = d.dx := by ring
    rw [e1]
    exact hax
  · simp only []
    have e1 : cy + d.dy - cy = d.dy := by ring
    rw [e1]
    exact hay
  · intro hne
    simp only [] at hne
    have hdg : d.diag = true := hdiag.mpr ⟨by omega, by omega⟩
    have hnb2 : ¬ (p.isBlocked (cx + d.dx) cy = true ∨
        p.isBlocked cx (cy + d.dy) = true) := fun hh => hcg ⟨hdg, hh⟩
    constructor
    · show p.isBlocked (cx + d.dx) cy = false
      cases hb : p.isBlocked (cx + d.dx) cy
      · rfl
      · exact absurd (Or.inl hb) hnb2
    · show p.isBlocked cx (cy + d.dy) = false
      cases hb : p.isBlocked cx (cy + d.dy)
      · rfl
      · exact absurd (Or.inr hb) hnb2

theorem validRoute_single (p : Pathfinder) (s : ℤ × ℤ) (h : p.free s) :
    ValidRoute p s s [s] := by
  refine ⟨rfl, rfl, h, ?_⟩
  simp

theorem validRoute_append (p : Pathfinder) (s c b : ℤ × ℤ)
    (r : List (ℤ × ℤ)) (h : ValidRoute p s c r) (hs : ValidStep p c b) :
    ValidRoute p s b (r ++ [b]) := by
  obtain ⟨hh, hl, hf, hch⟩ := h
  refine ⟨?_, ?_, hf, ?_⟩
  · cases r with
    | nil => simp at hh
    | cons x xs => simpa using hh
  · simp
  · rw [List.chain'_append]
    refine ⟨hch, by simp, ?_⟩
    intro x hx y hy
    rw [hl] at hx
    cases hx
    simp at hy
    subst hy
    exact hs

theorem routeCost_append_last (c b : ℤ × ℤ) :
    ∀ r : List (ℤ × ℤ), r.getLast? = some c →
      routeCost (r ++ [b]) = routeCost r + stepCost c b := by
  intro r
  induction r with
  | nil => intro h; simp at h
  | cons x xs ih =>
      intro h
      cases xs with
      | nil =>
          simp at h
          rw [h]
          show routeCost [c, b] = routeCost [c] + stepCost c b
          unfold routeCost
          unfold routeCost
          omega
      | cons y ys =>
          have h2 : (y :: ys).getLast? = some c := by
            rw [← h]
            exact List.getLast?_cons_cons.symm
          show stepCost x y + routeCost ((y :: ys) ++ [b]) =
            routeCost (x :: y :: ys) + stepCost c b
          rw [ih h2]
          show stepCost x y + (routeCost (y :: ys) + stepCost c b) =
            stepCost x y + routeCost (y :: ys) + stepCost c b
          omega

theorem consistency_route (p : Pathfinder) (gx gy : ℤ) :
    ∀ (r : List (ℤ × ℤ)) (c t : ℤ × ℤ), r.head? = some c →
      r.getLast? = some t → List.Chain' (ValidStep p) r →
      heuristic c.1 c.2 gx gy ≤
        routeCost r + heuristic t.1 t.2 gx gy := by
  intro r
  induction r with
  | nil => intro c t hh; simp at hh
  | cons x xs ih =>
      intro c t hh hl hch
      have hxc : x = c := by simpa using hh
      cases xs with
      | nil =>
          have hxt : x = t := by simpa using hl
          rw [← hxc, ← hxt]
          show heuristic x.1 x.2 gx gy ≤
            routeCost [x] + heuristic x.1 x.2 gx gy
          unfold routeCost
          omega
      | cons y ys =>
          have hstep : ValidStep p x y := (List.chain'_cons.mp hch).1
          have hch2 : List.Chain' (ValidStep p) (y :: ys) :=
            (List.chain'_cons.mp hch).2
          have hl2 : (y :: ys).getLast? = some t := by
            rw [← hl]
            exact List.getLast?_cons_cons.symm
          have h1 := ih y t rfl hl2 hch2
          obtain ⟨hfa, hfb, hne, hax, hay, hcorner⟩ := hstep
          have h2 := heuristic_consistent x y gx gy hax hay
          rw [← hxc]
          show heuristic x.1 x.2 gx gy ≤
            stepCost x y + routeCost (y :: ys) + heuristic t.1 t.2 gx gy
          omega

theorem chain_zip (R : (ℤ × ℤ) → (ℤ × ℤ) → Prop) :
    ∀ l : List (ℤ × ℤ), List.Chain' R l →
      ∀ pr ∈ l.zip l.tail, R pr.1 pr.2 := by
  intro l
  induction l with
  | nil => intro _ pr hpr; simp at hpr
  | cons x xs ih =>
      intro hch pr hpr
      cases xs with
      | nil => simp at hpr
      | cons y ys =>
          have h1 : pr = (x, y) ∨ pr ∈ (y :: ys).zip (y :: ys).tail := by
            simpa using hpr
          rcases h1 with rfl | h2
          · exact (List.chain'_cons.mp hch).1
          · exact ih (List.chain'_cons.mp hch).2 pr h2

theorem stepCostQ_eq (a b : ℤ × ℤ) :
    stepCostQ a b = (stepCost a b : ℚ) / 100 := by
  unfold stepCostQ stepCost
  split_ifs <;> norm_num

theorem routeCostQ_eq :
    ∀ r : List (ℤ × ℤ), routeCostQ r = (routeCost r : ℚ) / 100 := by
  intro r
  induction r with
  | nil => simp [routeCostQ, routeCost]
  | cons x xs ih =>
      cases xs with
      | nil => simp [routeCostQ, routeCost]
      | cons y ys =>
          show stepCostQ x y + routeCostQ (y :: ys) =
            ((stepCost x y + routeCost (y :: ys) : ℕ) : ℚ) / 100
          rw [stepCostQ_eq, ih]
          push_cast
          ring

theorem routeCostQ_mono (r1 r2 : List (ℤ × ℤ))
    (h : routeCost r1 ≤ routeCost r2) : routeCostQ r1 ≤ routeCostQ r2 := by
  rw [routeCostQ_eq, routeCostQ_eq]
  have h2 : (routeCost r1 : ℚ) ≤ (routeCost r2 : ℚ) := by
    exact_mod_cast h
  linarith

theorem relaxOne_skip_blocked (p : Pathfinder) (gx gy : ℤ) (curN : Node)
    (st : AState) (d : Dir)
    (h : p.isBlocked (curN.x + d.dx) (curN.y + d.dy) = true) :
    relaxOne p gx gy curN st d = st := by
  unfold relaxOne
  dsimp only
  rw [if_pos h]

theorem relaxOne_skip_corner (p : Pathfinder) (gx gy : ℤ) (curN : Node)
    (st : AState) (d : Dir)
    (h1 : p.isBlocked (curN.x + d.dx) (curN.y + d.dy) = false)
    (h2 : d.diag = true ∧ (p.isBlocked (curN.x + d.dx) curN.y = true ∨
      p.isBlocked curN.x (curN.y + d.dy) = true)) :
    relaxOne p gx gy curN st d = st := by
  unfold relaxOne
  dsimp only
  rw [if_neg (by simp [h1]), if_pos h2]

theorem relaxOne_skip_noimp (p : Pathfinder) (gx gy : ℤ) (curN : Node)
    (st : AState) (d : Dir) (ge : ℕ)
    (h1 : p.isBlocked (curN.x + d.dx) (curN.y + d.dy) = false)
    (h2 : ¬ (d.diag = true ∧ (p.isBlocked (curN.x + d.dx) curN.y = true ∨
      p.isBlocked curN.x (curN.y + d.dy) = true)))
    (h3 : st.gScore.lookup (key p (curN.x + d.dx) (curN.y + d.dy)) =
      some ge)
    (h4 : ¬ ((st.gScore.lookup (key p curN.x curN.y)).getD 0 + d.cost
      < ge)) :
    relaxOne p gx gy curN st d = st := by
  unfold relaxOne
  dsimp only
  rw [if_neg (by simp [h1]), if_neg h2, h3]
  dsimp only
  rw [if_neg (by simpa using h4)]

theorem relaxOne_update (p : Pathfinder) (gx gy : ℤ) (curN : Node)
    (st : AState) (d : Dir)
    (h1 : p.isBlocked (curN.x + d.dx) (curN.y + d.dy) = false)
    (h2 : ¬ (d.diag = true ∧ (p.isBlocked (curN.x + d.dx) curN.y = true ∨
      p.isBlocked curN.x (curN.y + d.dy) = true)))
    (h3 : st.gScore.lookup (key p (curN.x + d.dx) (curN.y + d.dy)) =
        Option.none ∨
      ∃ ge, st.gScore.lookup (key p (curN.x + d.dx) (curN.y + d.dy)) =
        some ge ∧
        (st.gScore.lookup (key p curN.x curN.y)).getD 0 + d.cost < ge) :
    relaxOne p gx gy curN st d =
      { openSet := heapPush st.openSet
          { x := curN.x + d.dx, y := curN.y + d.dy,
            g := (st.gScore.lookup (key p curN.x curN.y)).getD 0 + d.cost,
            h := heuristic (curN.x + d.dx) (curN.y + d.dy) gx gy,
            f := (st.gScore.lookup (key p curN.x curN.y)).getD 0 + d.cost
              + heuristic (curN.x + d.dx) (curN.y + d.dy) gx gy },
        gScore := mapSet st.gScore
          (key p (curN.x + d.dx) (curN.y + d.dy))
          ((st.gScore.lookup (key p curN.x curN.y)).getD 0 + d.cost),
        cameFrom := mapSet st.cameFrom
          (key p (curN.x + d.dx) (curN.y + d.dy))
          (curN.x, curN.y) } := by
  unfold relaxOne
  dsimp only
  rw [if_neg (by simp [h1]), if_neg h2]
  rcases h3 with hn | ⟨ge, hg, hlt⟩
  · rw [hn]
    dsimp only
    rw [if_pos rfl]
  · rw [hg]
    dsimp only
    rw [if_pos (by simpa using hlt)]

/-- Effect of one improving relaxation: all `RInv` components hold of the
updated state, old entries only shrink, old open nodes survive, and the
neighbor's new `gScore` entry is `g0 + d.cost`. -/
theorem relaxOne_update_core (p : Pathfinder) (s : ℤ × ℤ) (gx gy : ℤ)
    (curN : Node) (g0 : ℕ) (base st : AState) (d : Dir) (hd : d ∈ dirs)
    (hinv : RInv p s gx gy (curN.x, curN.y) g0 base st)
    (hb1 : p.isBlocked (curN.x + d.dx) (curN.y + d.dy) = false)
    (hb2 : ¬ (d.diag = true ∧ (p.isBlocked (curN.x + d.dx) curN.y = true ∨
      p.isBlocked curN.x (curN.y + d.dy) = true)))
    (hold : ∀ v, st.gScore.lookup
      (key p (curN.x + d.dx) (curN.y + d.dy)) = some v →
      g0 + d.cost < v) :
    RInv p s gx gy (curN.x, curN.y) g0 base
      { openSet := heapPush st.openSet
          { x := curN.x + d.dx, y := curN.y + d.dy,
            g := g0 + d.cost,
            h := heuristic (curN.x + d.dx) (curN.y + d.dy) gx gy,
            f := g0 + d.cost
              + heuristic (curN.x + d.dx) (curN.y + d.dy) gx gy },
        gScore := mapSet st.gScore
          (key p (curN.x + d.dx) (curN.y + d.dy)) (g0 + d.cost),
        cameFrom := mapSet st.cameFrom
          (key p (curN.x + d.dx) (curN.y + d.dy)) (curN.x, curN.y) } ∧
    (∀ kk v, st.gScore.lookup kk = some v →
      ∃ v2, (mapSet st.gScore
        (key p (curN.x + d.dx) (curN.y + d.dy))
          (g0 + d.cost)).lookup kk = some v2 ∧ v2 ≤ v) ∧
    (∀ nd ∈ st.openSet, nd ∈ heapPush st.openSet
      { x := curN.x + d.dx, y := curN.y + d.dy,
        g := g0 + d.cost,
        h := heuristic (curN.x + d.dx) (curN.y + d.dy) gx gy,
        f := g0 + d.cost
          + heuristic (curN.x + d.dx) (curN.y + d.dy) gx gy }) ∧
    (mapSet st.gScore (key p (curN.x + d.dx) (curN.y + d.dy))
      (g0 + d.cost)).lookup
        (key p (curN.x + d.dx) (curN.y + d.dy)) = some (g0 + d.cost) := by
  obtain ⟨hc100, hc141, hax, hay, hnz, hdiagiff, hsc⟩ := dir_facts d hd
  have hcurg : st.gScore.lookup (key p curN.x curN.y) = some g0 :=
    hinv.cur_g
  have hfnb : p.free (curN.x + d.dx, curN.y + d.dy) := hb1
  have hvs : ValidStep p (curN.x, curN.y)
      (curN.x + d.dx, curN.y + d.dy) :=
    dir_validStep p curN.x curN.y d hd hinv.cur_free hb1 hb2
  have hcellne : (curN.x + d.dx, curN.y + d.dy) ≠ (curN.x, curN.y) := by
    intro heq
    have e1 : curN.x + d.dx = curN.x := congrArg Prod.fst heq
    have e2 : curN.y + d.dy = curN.y := congrArg Prod.snd heq
    exact hnz ⟨by omega, by omega⟩
  have hstep_cost : stepCost (curN.x, curN.y)
      (curN.x + d.dx, curN.y + d.dy) = d.cost := hsc (curN.x, curN.y)
  have hkey_of_free : ∀ c : ℤ × ℤ, p.free c →
      key p c.1 c.2 = key p (curN.x + d.dx) (curN.y + d.dy) →
      c = (curN.x + d.dx, curN.y + d.dy) := by
    intro c hc hk
    exact key_inj p c (curN.x + d.dx, curN.y + d.dy) hc hfnb hk
  have hkcur : key p curN.x curN.y ≠
      key p (curN.x + d.dx) (curN.y + d.dy) := by
    intro hk
    exact hcellne (hkey_of_free (curN.x, curN.y) hinv.cur_free hk).symm
  have hg2self : (mapSet st.gScore
      (key p (curN.x + d.dx) (curN.y + d.dy)) (g0 + d.cost)).lookup
        (key p (curN.x + d.dx) (curN.y + d.dy)) = some (g0 + d.cost) :=
    lookup_mapSet_self _ _ _
  have hg2ne : ∀ kk, kk ≠ key p (curN.x + d.dx) (curN.y + d.dy) →
      (mapSet st.gScore (key p (curN.x + d.dx) (curN.y + d.dy))
        (g0 + d.cost)).lookup kk = st.gScore.lookup kk :=
    fun kk h => lookup_mapSet_ne _ _ _ _ h
  have hc2self : (mapSet st.cameFrom
      (key p (curN.x + d.dx) (curN.y + d.dy)) (curN.x, curN.y)).lookup
        (key p (curN.x + d.dx) (curN.y + d.dy)) =
      some (curN.x, curN.y) := lookup_mapSet_self _ _ _
  have hc2ne : ∀ kk, kk ≠ key p (curN.x + d.dx) (curN.y + d.dy) →
      (mapSet st.cameFrom (key p (curN.x + d.dx) (curN.y + d.dy))
        (curN.x, curN.y)).lookup kk = st.cameFrom.lookup kk :=
    fun kk h => lookup_mapSet_ne _ _ _ _ h
  have hpush := heapPush_spec st.openSet
    { x := curN.x + d.dx, y := curN.y + d.dy, g := g0 + d.cost,
      h := heuristic (curN.x + d.dx) (curN.y + d.dy) gx gy,
      f := g0 + d.cost
        + heuristic (curN.x + d.dx) (curN.y + d.dy) gx gy } hinv.hp
  have hmemiff : ∀ nd : Node, nd ∈ heapPush st.openSet
      { x := curN.x + d.dx, y := curN.y + d.dy, g := g0 + d.cost,
        h := heuristic (curN.x + d.dx) (curN.y + d.dy) gx gy,
        f := g0 + d.cost
          + heuristic (curN.x + d.dx) (curN.y + d.dy) gx gy } ↔
      (nd ∈ st.openSet ∨ nd =
        { x := curN.x + d.dx, y := curN.y + d.dy, g := g0 + d.cost,
          h := heuristic (curN.x + d.dx) (curN.y + d.dy) gx gy,
          f := g0 + d.cost
            + heuristic (curN.x + d.dx) (curN.y + d.dy) gx gy }) := by
    intro nd
    rw [List.Perm.mem_iff hpush.2.1]
    simp
  have hmono2 : ∀ kk v, st.gScore.lookup kk = some v →
      ∃ v2, (mapSet st.gScore
        (key p (curN.x + d.dx) (curN.y + d.dy))
          (g0 + d.cost)).lookup kk = some v2 ∧ v2 ≤ v := by
    intro kk v hv
    by_cases hkk : kk = key p (curN.x + d.dx) (curN.y + d.dy)
    · subst hkk
      exact ⟨g0 + d.cost, hg2self, (hold v hv).le⟩
    · exact ⟨v, by rw [hg2ne kk hkk]; exact hv, le_refl v⟩
  -- gScore wellformedness and key distinctness of the updated map
  have hgwf2 : ∀ kk v, (mapSet st.gScore
      (key p (curN.x + d.dx) (curN.y + d.dy))
        (g0 + d.cost)).lookup kk = some v →
      ∃ c : ℤ × ℤ, kk = key p c.1 c.2 ∧ p.free c := by
    intro kk v hv
    by_cases hkk : kk = key p (curN.x + d.dx) (curN.y + d.dy)
    · subst hkk
      exact ⟨(curN.x + d.dx, curN.y + d.dy), rfl, hfnb⟩
    · rw [hg2ne kk hkk] at hv
      exact hinv.gwf kk v hv
  have hgnd2 : ((mapSet st.gScore
      (key p (curN.x + d.dx) (curN.y + d.dy))
        (g0 + d.cost)).map Prod.fst).Nodup :=
    keysNodup_mapSet _ _ _ hinv.gnodup
  refine ⟨⟨hinv.sfree, hinv.gfree, hpush.1, ?_, hgwf2, hgnd2, ?_, ?_, ?_,
    ?_, ?_, ?_, hinv.cur_free, ?_, ?_, ?_, ?_⟩, hmono2,
    fun nd h => (hmemiff nd).mpr (Or.inl h), hg2self⟩
  · -- start entry is unchanged
    have hks : key p s.1 s.2 ≠
        key p (curN.x + d.dx) (curN.y + d.dy) := by
      intro hk
      have h0 : st.gScore.lookup
          (key p (curN.x + d.dx) (curN.y + d.dy)) = some 0 := by
        rw [← hk]
        exact hinv.start_g
      have := hold 0 h0
      omega
    show (mapSet st.gScore (key p (curN.x + d.dx) (curN.y + d.dy))
        (g0 + d.cost)).lookup (key p s.1 s.2) = some 0
    rw [hg2ne _ hks]
    exact hinv.start_g
  · -- value bound
    rcases hnbold : st.gScore.lookup
        (key p (curN.x + d.dx) (curN.y + d.dy)) with _ | ge
    · have hlen2 : (mapSet st.gScore
          (key p (curN.x + d.dx) (curN.y + d.dy))
            (g0 + d.cost)).length = st.gScore.length + 1 :=
        length_mapSet_of_lookup_none _ _ _ hnbold
      intro kk v hv
      by_cases hkk : kk = key p (curN.x + d.dx) (curN.y + d.dy)
      · subst hkk
        have hveq : g0 + d.cost = v :=
          Option.some.inj (hg2self.symm.trans hv)
        have hg0b := hinv.gbound (key p curN.x curN.y) g0 hcurg
        rw [hlen2]
        omega
      · rw [hg2ne kk hkk] at hv
        have := hinv.gbound kk v hv
        rw [hlen2]
        omega
    · have hlen2 : (mapSet st.gScore
          (key p (curN.x + d.dx) (curN.y + d.dy))
            (g0 + d.cost)).length = st.gScore.length :=
        length_mapSet_of_lookup_some _ _ _ (by rw [hnbold]; rfl)
      intro kk v hv
      by_cases hkk : kk = key p (curN.x + d.dx) (curN.y + d.dy)
      · subst hkk
        have hveq : g0 + d.cost = v :=
          Option.some.inj (hg2self.symm.trans hv)
        have hgeb := hinv.gbound _ ge hnbold
        have hlt := hold ge hnbold
        rw [hlen2]
        omega
      · rw [hg2ne kk hkk] at hv
        have := hinv.gbound kk v hv
        rw [hlen2]
        omega
  · -- per-node facts
    intro nd hnd
    rcases (hmemiff nd).mp hnd with hndold | rfl
    · obtain ⟨hfree, hh, hf, v, hvv, hvle⟩ := hinv.node_inv nd hndold
      refine ⟨hfree, hh, hf, ?_⟩
      obtain ⟨v2, hv2, hv2le⟩ := hmono2 (key p nd.x nd.y) v hvv
      exact ⟨v2, hv2, le_trans hv2le hvle⟩
    · exact ⟨hfnb, rfl, rfl, g0 + d.cost, hg2self, le_refl _⟩
  · -- P-invariant away from the popped cell
    intro c hcf hcne v hv
    by_cases hcnb : c = (curN.x + d.dx, curN.y + d.dy)
    · subst hcnb
      have hv2 : (mapSet st.gScore
          (key p (curN.x + d.dx) (curN.y + d.dy))
            (g0 + d.cost)).lookup
          (key p (curN.x + d.dx) (curN.y + d.dy)) = some v := hv
      have hveq : g0 + d.cost = v :=
        Option.some.inj (hg2self.symm.trans hv2)
      exact Or.inl ⟨{ x := curN.x + d.dx, y := curN.y + d.dy, g := g0 + d.cost, h := heuristic (curN.x + d.dx) (curN.y + d.dy) gx gy, f := g0 + d.cost + heuristic (curN.x + d.dx) (curN.y + d.dy) gx gy }, (hmemiff _).mpr (Or.inr rfl), rfl, rfl, le_of_eq hveq⟩
    · have hkc : key p c.1 c.2 ≠
          key p (curN.x + d.dx) (curN.y + d.dy) :=
        fun hk => hcnb (hkey_of_free c hcf hk)
      have hvold : gLook p st c = some v := by
        have hv2 : (mapSet st.gScore
            (key p (curN.x + d.dx) (curN.y + d.dy))
              (g0 + d.cost)).lookup (key p c.1 c.2) = some v := hv
        rw [hg2ne _ hkc] at hv2
        exact hv2
      rcases hinv.pexc c hcf hcne v hvold with
        ⟨nd, hndmem, hx, hy, hg⟩ | hall
      · exact Or.inl ⟨nd, (hmemiff nd).mpr (Or.inl hndmem), hx, hy, hg⟩
      · right
        intro b hb
        obtain ⟨vb, hvb, hvble⟩ := hall b hb
        obtain ⟨v2, hv2, hv2le⟩ := hmono2 (key p b.1 b.2) vb hvb
        exact ⟨v2, hv2, by omega⟩
  · -- cameFrom consistency
    intro c hcf pv hpv
    by_cases hcnb : c = (curN.x + d.dx, curN.y + d.dy)
    · subst hcnb
      have hpv2 : (mapSet st.cameFrom
          (key p (curN.x + d.dx) (curN.y + d.dy))
            (curN.x, curN.y)).lookup
          (key p (curN.x + d.dx) (curN.y + d.dy)) = some pv := hpv
      have hpveq : (curN.x, curN.y) = pv :=
        Option.some.inj (hc2self.symm.trans hpv2)
      rw [← hpveq]
      refine ⟨hvs, g0 + d.cost, g0, hg2self, ?_, ?_⟩
      · show (mapSet st.gScore
            (key p (curN.x + d.dx) (curN.y + d.dy))
              (g0 + d.cost)).lookup (key p curN.x curN.y) = some g0
        rw [hg2ne _ hkcur]
        exact hcurg
      · rw [hstep_cost]
    · have hkc : key p c.1 c.2 ≠
          key p (curN.x + d.dx) (curN.y + d.dy) :=
        fun hk => hcnb (hkey_of_free c hcf hk)
      have hpvold : cLook p st c = some pv := by
        have hpv2 : (mapSet st.cameFrom
            (key p (curN.x + d.dx) (curN.y + d.dy))
              (curN.x, curN.y)).lookup (key p c.1 c.2) = some pv := hpv
        rw [hc2ne _ hkc] at hpv2
        exact hpv2
      obtain ⟨hvs2, vc, vp, hvc, hvp, hsum⟩ := hinv.came c hcf pv hpvold
      by_cases hpvnb : pv = (curN.x + d.dx, curN.y + d.dy)
      · have hvpnb : st.gScore.lookup
            (key p (curN.x + d.dx) (curN.y + d.dy)) = some vp := by
          rw [hpvnb] at hvp
          exact hvp
        have hlt := hold vp hvpnb
        refine ⟨hvs2, vc, g0 + d.cost, ?_, ?_, ?_⟩
        · show (mapSet st.gScore
              (key p (curN.x + d.dx) (curN.y + d.dy))
                (g0 + d.cost)).lookup (key p c.1 c.2) = some vc
          rw [hg2ne _ hkc]
          exact hvc
        · rw [hpvnb]
          exact hg2self
        · have hsc2 : stepCost pv c ≥ 100 := stepCost_ge pv c
          omega
      · have hkpv : key p pv.1 pv.2 ≠
            key p (curN.x + d.dx) (curN.y + d.dy) :=
          fun hk => hpvnb (hkey_of_free pv hvs2.1 hk)
        refine ⟨hvs2, vc, vp, ?_, ?_, hsum⟩
        · show (mapSet st.gScore
              (key p (curN.x + d.dx) (curN.y + d.dy))
                (g0 + d.cost)).lookup (key p c.1 c.2) = some vc
          rw [hg2ne _ hkc]
          exact hvc
        · show (mapSet st.gScore
              (key p (curN.x + d.dx) (curN.y + d.dy))
                (g0 + d.cost)).lookup (key p pv.1 pv.2) = some vp
          rw [hg2ne _ hkpv]
          exact hvp
  · -- domain: every non-start scored cell has a parent
    intro c hcf v hv
    by_cases hcnb : c = (curN.x + d.dx, curN.y + d.dy)
    · subst hcnb
      exact Or.inr ⟨(curN.x, curN.y), hc2self⟩
    · have hkc : key p c.1 c.2 ≠
          key p (curN.x + d.dx) (curN.y + d.dy) :=
        fun hk => hcnb (hkey_of_free c hcf hk)
      have hvold : gLook p st c = some v := by
        have hv2 : (mapSet st.gScore
            (key p (curN.x + d.dx) (curN.y + d.dy))
              (g0 + d.cost)).lookup (key p c.1 c.2) = some v := hv
        rw [hg2ne _ hkc] at hv2
        exact hv2
      rcases hinv.dom c hcf v hvold with hcs | ⟨pv, hpv⟩
      · exact Or.inl hcs
      · refine Or.inr ⟨pv, ?_⟩
        show (mapSet st.cameFrom
            (key p (curN.x + d.dx) (curN.y + d.dy))
              (curN.x, curN.y)).lookup (key p c.1 c.2) = some pv
        rw [hc2ne _ hkc]
        exact hpv
  · -- the goal keeps an open node once it is scored
    by_cases hgnb : (gx, gy) = (curN.x + d.dx, curN.y + d.dy)
    · refine Or.inr ⟨{ x := curN.x + d.dx, y := curN.y + d.dy, g := g0 + d.cost, h := heuristic (curN.x + d.dx) (curN.y + d.dy) gx gy, f := g0 + d.cost + heuristic (curN.x + d.dx) (curN.y + d.dy) gx gy }, (hmemiff _).mpr (Or.inr rfl), ?_, ?_⟩
      · exact (congrArg Prod.fst hgnb).symm
      · exact (congrArg Prod.snd hgnb).symm
    · rcases hinv.goal_open with hnone | ⟨nd, hndm, hx, hy⟩
      · left
        have hkg : key p gx gy ≠
            key p (curN.x + d.dx) (curN.y + d.dy) :=
          fun hk => hgnb (hkey_of_free (gx, gy) hinv.gfree hk)
        show (mapSet st.gScore
            (key p (curN.x + d.dx) (curN.y + d.dy))
              (g0 + d.cost)).lookup (key p gx gy) = Option.none
        rw [hg2ne _ hkg]
        exact hnone
      · exact Or.inr ⟨nd, (hmemiff nd).mpr (Or.inl hndm), hx, hy⟩
  · -- the popped cell's score is untouched
    show (mapSet st.gScore (key p (curN.x + d.dx) (curN.y + d.dy))
        (g0 + d.cost)).lookup (key p curN.x curN.y) = some g0
    rw [hg2ne _ hkcur]
    exact hcurg
  · -- base-to-state monotonicity
    intro kk v hv
    obtain ⟨v1, hv1, hle1⟩ := hinv.mono kk v hv
    obtain ⟨v2, hv2, hle2⟩ := hmono2 kk v1 hv1
    exact ⟨v2, hv2, le_trans hle2 hle1⟩
  · -- base open nodes survive
    intro nd hnd
    exact (hmemiff nd).mpr (Or.inl (hinv.omem nd hnd))
  · -- the potential does not increase
    have hol : (heapPush st.openSet
        { x := curN.x + d.dx, y := curN.y + d.dy, g := g0 + d.cost,
          h := heuristic (curN.x + d.dx) (curN.y + d.dy) gx gy,
          f := g0 + d.cost
            + heuristic (curN.x + d.dx) (curN.y + d.dy) gx gy }).length =
        st.openSet.length + 1 := hpush.2.2
    rcases hnbold : st.gScore.lookup
        (key p (curN.x + d.dx) (curN.y + d.dy)) with _ | ge
    · have hlen2 : (mapSet st.gScore
          (key p (curN.x + d.dx) (curN.y + d.dy))
            (g0 + d.cost)).length = st.gScore.length + 1 :=
        length_mapSet_of_lookup_none _ _ _ hnbold
      have hsum2 : ((mapSet st.gScore
          (key p (curN.x + d.dx) (curN.y + d.dy))
            (g0 + d.cost)).map Prod.snd).sum =
          (st.gScore.map Prod.snd).sum + (g0 + d.cost) :=
        sum_mapSet_of_lookup_none _ _ _ hnbold
      have hle2 : st.gScore.length + 1 ≤ p.width * p.height := by
        rw [← hlen2]
        exact gmap_length_le p _ hgwf2 hgnd2
      have hg0b := hinv.gbound (key p curN.x curN.y) g0 hcurg
      have htgW : g0 + d.cost ≤ 141 * (p.width * p.height) := by omega
      have hWK : (p.width * p.height - st.gScore.length) *
          (141 * (p.width * p.height) + 2) =
          (p.width * p.height - (st.gScore.length + 1)) *
            (141 * (p.width * p.height) + 2) +
          (141 * (p.width * p.height) + 2) := by
        rw [show p.width * p.height - st.gScore.length =
          (p.width * p.height - (st.gScore.length + 1)) + 1 from by omega,
          add_mul, one_mul]
      refine le_trans ?_ hinv.fbound
      rw [hol, hlen2, hsum2, hWK]
      have hA : ∀ A : ℕ,
          st.openSet.length + 1 +
            ((st.gScore.map Prod.snd).sum + (g0 + d.cost)) + A ≤
          st.openSet.length + (st.gScore.map Prod.snd).sum +
            (A + (141 * (p.width * p.height) + 2)) := by
        intro A
        omega
      exact hA _
    · have hlen2 : (mapSet st.gScore
          (key p (curN.x + d.dx) (curN.y + d.dy))
            (g0 + d.cost)).length = st.gScore.length :=
        length_mapSet_of_lookup_some _ _ _ (by rw [hnbold]; rfl)
      have hsum2 := sum_mapSet_of_lookup_some st.gScore
        (key p (curN.x + d.dx) (curN.y + d.dy)) (g0 + d.cost) ge hnbold
      have hlt := hold ge hnbold
      refine le_trans ?_ hinv.fbound
      rw [hol, hlen2]
      have hA : ∀ A : ℕ,
          ((mapSet st.gScore (key p (curN.x + d.dx) (curN.y + d.dy))
            (g0 + d.cost)).map Prod.snd).sum + ge =
            (st.gScore.map Prod.snd).sum + (g0 + d.cost) →
          st.openSet.length + 1 +
            ((mapSet st.gScore (key p (curN.x + d.dx) (curN.y + d.dy))
              (g0 + d.cost)).map Prod.snd).sum + A ≤
          st.openSet.length + (st.gScore.map Prod.snd).sum + A := by
        intro A hs
        omega
      exact hA _ hsum2

theorem relaxOne_step (p : Pathfinder) (s : ℤ × ℤ) (gx gy : ℤ)
    (curN : Node) (g0 : ℕ) (base st : AState) (d : Dir) (hd : d ∈ dirs)
    (hinv : RInv p s gx gy (curN.x, curN.y) g0 base st) :
    RInv p s gx gy (curN.x, curN.y) g0 base
      (relaxOne p gx gy curN st d) ∧
    (∀ kk v, st.gScore.lookup kk = some v →
      ∃ v2, (relaxOne p gx gy curN st d).gScore.lookup kk = some v2 ∧
        v2 ≤ v) ∧
    (∀ nd ∈ st.openSet, nd ∈ (relaxOne p gx gy curN st d).openSet) ∧
    (p.isBlocked (curN.x + d.dx) (curN.y + d.dy) = false →
      ¬ (d.diag = true ∧ (p.isBlocked (curN.x + d.dx) curN.y = true ∨
        p.isBlocked curN.x (curN.y + d.dy) = true)) →
      ∃ vb, (relaxOne p gx gy curN st d).gScore.lookup
          (key p (curN.x + d.dx) (curN.y + d.dy)) = some vb ∧
        vb ≤ g0 + d.cost) := by
  obtain ⟨hc100, hc141, hax, hay, hnz, hdiagiff, hsc⟩ := dir_facts d hd
  cases hb1 : p.isBlocked (curN.x + d.dx) (curN.y + d.dy) with
  | true =>
      rw [relaxOne_skip_blocked p gx gy curN st d hb1]
      refine ⟨hinv, fun kk v h => ⟨v, h, le_refl v⟩, fun nd h => h, ?_⟩
      intro hcontr
      cases hcontr
  | false =>
      by_cases hb2 : d.diag = true ∧
          (p.isBlocked (curN.x + d.dx) curN.y = true ∨
            p.isBlocked curN.x (curN.y + d.dy) = true)
      · rw [relaxOne_skip_corner p gx gy curN st d hb1 hb2]
        exact ⟨hinv, fun kk v h => ⟨v, h, le_refl v⟩, fun nd h => h,
          fun _ hng => absurd hb2 hng⟩
      · -- the neighbor is admissible; it is free, and the step is valid
        have hcurg : st.gScore.lookup (key p curN.x curN.y) = some g0 :=
          hinv.cur_g
        have hfnb : p.free (curN.x + d.dx, curN.y + d.dy) := hb1
        have hvs : ValidStep p (curN.x, curN.y)
            (curN.x + d.dx, curN.y + d.dy) :=
          dir_validStep p curN.x curN.y d hd hinv.cur_free hb1 hb2
        have hcellne : (curN.x + d.dx, curN.y + d.dy) ≠
            (curN.x, curN.y) := by
          intro heq
          have e1 : curN.x + d.dx = curN.x := congrArg Prod.fst heq
          have e2 : curN.y + d.dy = curN.y := congrArg Prod.snd heq
          exact hnz ⟨by omega, by omega⟩
        have hstep_cost : stepCost (curN.x, curN.y)
            (curN.x + d.dx, curN.y + d.dy) = d.cost := hsc (curN.x, curN.y)
        cases hnbl : st.gScore.lookup
            (key p (curN.x + d.dx) (curN.y + d.dy)) with
        | some ge =>
            by_cases himp : g0 + d.cost < ge
            · have hst2 : relaxOne p gx gy curN st d =
                  { openSet := heapPush st.openSet
                      { x := curN.x + d.dx, y := curN.y + d.dy,
                        g := g0 + d.cost,
                        h := heuristic (curN.x + d.dx) (curN.y + d.dy)
                          gx gy,
                        f := g0 + d.cost
                          + heuristic (curN.x + d.dx) (curN.y + d.dy)
                            gx gy },
                    gScore := mapSet st.gScore
                      (key p (curN.x + d.dx) (curN.y + d.dy))
                      (g0 + d.cost),
                    cameFrom := mapSet st.cameFrom
                      (key p (curN.x + d.dx) (curN.y + d.dy))
                      (curN.x, curN.y) } := by
                rw [relaxOne_update p gx gy curN st d hb1 hb2
                  (Or.inr ⟨ge, hnbl, by rw [hcurg]; simpa using himp⟩),
                  hcurg]
                simp only [Option.getD_some]
              have hcore := relaxOne_update_core p s gx gy curN g0 base
                st d hd hinv hb1 hb2 (fun v hv => by
                  rw [hnbl] at hv
                  have := Option.some.inj hv
                  omega)
              rw [hst2]
              exact ⟨hcore.1, hcore.2.1, hcore.2.2.1,
                fun _ _ => ⟨g0 + d.cost, hcore.2.2.2, le_refl _⟩⟩
            · rw [relaxOne_skip_noimp p gx gy curN st d ge hb1 hb2 hnbl
                (by rw [hcurg]; simpa using himp)]
              refine ⟨hinv, fun kk v h => ⟨v, h, le_refl v⟩,
                fun nd h => h, ?_⟩
              intro _ _
              exact ⟨ge, hnbl, by omega⟩
        | none =>
            have hst2 : relaxOne p gx gy curN st d =
                { openSet := heapPush st.openSet
                    { x := curN.x + d.dx, y := curN.y + d.dy,
                      g := g0 + d.cost,
                      h := heuristic (curN.x + d.dx) (curN.y + d.dy)
                        gx gy,
                      f := g0 + d.cost
                        + heuristic (curN.x + d.dx) (curN.y + d.dy)
                          gx gy },
                  gScore := mapSet st.gScore
                    (key p (curN.x + d.dx) (curN.y + d.dy))
                    (g0 + d.cost),
                  cameFrom := mapSet st.cameFrom
                    (key p (curN.x + d.dx) (curN.y + d.dy))
                    (curN.x, curN.y) } := by
              rw [relaxOne_update p gx gy curN st d hb1 hb2
                (Or.inl hnbl), hcurg]
              simp only [Option.getD_some]
            have hcore := relaxOne_update_core p s gx gy curN g0 base
              st d hd hinv hb1 hb2 (fun v hv => by
                rw [hnbl] at hv
                cases hv)
            rw [hst2]
            exact ⟨hcore.1, hcore.2.1, hcore.2.2.1,
              fun _ _ => ⟨g0 + d.cost, hcore.2.2.2, le_refl _⟩⟩

theorem relaxFold (p : Pathfinder) (s : ℤ × ℤ) (gx gy : ℤ) (curN : Node)
    (g0 : ℕ) (base : AState) :
    ∀ (ds : List Dir), (∀ d ∈ ds, d ∈ dirs) → ∀ st,
    RInv p s gx gy (curN.x, curN.y) g0 base st →
    RInv p s gx gy (curN.x, curN.y) g0 base
      (ds.foldl (relaxOne p gx gy curN) st) ∧
    (∀ kk v, st.gScore.lookup kk = some v →
      ∃ v2, (ds.foldl (relaxOne p gx gy curN) st).gScore.lookup kk =
        some v2 ∧ v2 ≤ v) ∧
    (∀ d ∈ ds,
      p.isBlocked (curN.x + d.dx) (curN.y + d.dy) = false →
      ¬ (d.diag = true ∧ (p.isBlocked (curN.x + d.dx) curN.y = true ∨
        p.isBlocked curN.x (curN.y + d.dy) = true)) →
      ∃ vb, (ds.foldl (relaxOne p gx gy curN) st).gScore.lookup
          (key p (curN.x + d.dx) (curN.y + d.dy)) = some vb ∧
        vb ≤ g0 + d.cost) := by
  intro ds
  induction ds with
  | nil =>
      intro _ st hinv
      exact ⟨hinv, fun kk v h => ⟨v, h, le_refl v⟩,
        fun d hd => absurd hd (List.not_mem_nil d)⟩
  | cons d ds ih =>
      intro hds st hinv
      have hd : d ∈ dirs := hds d (List.mem_cons_self d ds)
      obtain ⟨hinv2, hmono1, homem1, hbound1⟩ :=
        relaxOne_step p s gx gy curN g0 base st d hd hinv
      obtain ⟨hinv3, hmono2, hbound2⟩ :=
        ih (fun d2 h2 => hds d2 (List.mem_cons_of_mem d h2))
          (relaxOne p gx gy curN st d) hinv2
      refine ⟨hinv3, ?_, ?_⟩
      · intro kk v hv
        obtain ⟨v1, hv1, hle1⟩ := hmono1 kk v hv
        obtain ⟨v2, hv2, hle2⟩ := hmono2 kk v1 hv1
        exact ⟨v2, hv2, le_trans hle2 hle1⟩
      · intro d2 hd2 hbb1 hbb2
        rcases List.mem_cons.mp hd2 with heq | hmem
        · subst heq
          obtain ⟨vb, hvb, hvble⟩ := hbound1 hbb1 hbb2
          obtain ⟨v2, hv2, hle2⟩ := hmono2 _ vb hvb
          exact ⟨v2, hv2, le_trans hle2 hvble⟩
        · exact hbound2 d2 hmem hbb1 hbb2

theorem pop_rinv (p : Pathfinder) (s : ℤ × ℤ) (gx gy : ℤ) (st : AState)
    (hinv : AInv p s gx gy st) (hne : st.openSet ≠ [])
    (hgoal : ¬ ((heapPop st.openSet).1.x = gx ∧
      (heapPop st.openSet).1.y = gy)) :
    ∃ g0, gLook p st ((heapPop st.openSet).1.x,
        (heapPop st.openSet).1.y) = some g0 ∧
      g0 ≤ (heapPop st.openSet).1.g ∧
      RInv p s gx gy ((heapPop st.openSet).1.x, (heapPop st.openSet).1.y)
        g0
        { openSet := (heapPop st.openSet).2, gScore := st.gScore, cameFrom := st.cameFrom }
        { openSet := (heapPop st.openSet).2, gScore := st.gScore, cameFrom := st.cameFrom } ∧
      phi p { openSet := (heapPop st.openSet).2, gScore := st.gScore, cameFrom := st.cameFrom } + 1 = phi p st := by
  have hps := heapPop_spec st.openSet hne hinv.hp
  have hcur : (heapPop st.openSet).1 ∈ st.openSet :=
    (hps.2.1.mem_iff).mp (List.mem_cons_self _ _)
  obtain ⟨hfree, hh, hf, g0, hg0, hg0le⟩ := hinv.node_inv _ hcur
  have hrest : ∀ nd ∈ (heapPop st.openSet).2, nd ∈ st.openSet :=
    fun nd h => (hps.2.1.mem_iff).mp (List.mem_cons_of_mem _ h)
  refine ⟨g0, hg0, hg0le, ?_, ?_⟩
  · refine ⟨hinv.sfree, hinv.gfree, hps.2.2.1, hinv.start_g, hinv.gwf,
      hinv.gnodup, hinv.gbound, ?_, ?_, hinv.came, hinv.dom, ?_,
      hfree, hg0, fun kk v h => ⟨v, h, le_refl v⟩, fun nd h => h,
      le_refl _⟩
    · intro nd hnd
      exact hinv.node_inv nd (hrest nd hnd)
    · intro c hcf hcne v hv
      rcases hinv.pinv c hcf v hv with ⟨nd, hmem, hx, hy, hg⟩ | hall
      · refine Or.inl ⟨nd, ?_, hx, hy, hg⟩
        have hndne : nd ≠ (heapPop st.openSet).1 := by
          intro heq
          apply hcne
          have e1 : (heapPop st.openSet).1.x = c.1 := by rw [← heq]; exact hx
          have e2 : (heapPop st.openSet).1.y = c.2 := by rw [← heq]; exact hy
          rw [e1, e2]
        rcases List.mem_cons.mp ((hps.2.1.symm.mem_iff).mp hmem) with
          heq | hmem2
        · exact absurd heq hndne
        · exact hmem2
      · exact Or.inr hall
    · rcases hinv.goal_open with hnone | ⟨nd, hmem, hx, hy⟩
      · exact Or.inl hnone
      · refine Or.inr ⟨nd, ?_, hx, hy⟩
        have hndne : nd ≠ (heapPop st.openSet).1 := by
          intro heq
          apply hgoal
          rw [← heq]
          exact ⟨hx, hy⟩
        rcases List.mem_cons.mp ((hps.2.1.symm.mem_iff).mp hmem) with
          heq | hmem2
        · exact absurd heq hndne
        · exact hmem2
  · unfold phi
    have hlen := hps.2.2.2
    have hpos : 0 < st.openSet.length := List.length_pos.mpr hne
    dsimp only
    generalize (p.width * p.height - st.gScore.length) *
      (141 * (p.width * p.height) + 2) = A
    omega

theorem relaxAll_ainv (p : Pathfinder) (s : ℤ × ℤ) (gx gy : ℤ)
    (st : AState) (hinv : AInv p s gx gy st) (hne : st.openSet ≠ [])
    (hgoal : ¬ ((heapPop st.openSet).1.x = gx ∧
      (heapPop st.openSet).1.y = gy)) :
    AInv p s gx gy (relaxAll p gx gy (heapPop st.openSet).1
      { openSet := (heapPop st.openSet).2, gScore := st.gScore, cameFrom := st.cameFrom }) ∧
    phi p (relaxAll p gx gy (heapPop st.openSet).1
      { openSet := (heapPop st.openSet).2, gScore := st.gScore, cameFrom := st.cameFrom }) < phi p st := by
  obtain ⟨g0, hg0, hg0le, hrinv, hphi⟩ := pop_rinv p s gx gy st hinv hne
    hgoal
  obtain ⟨hrinv2, hmono2, hbound2⟩ := relaxFold p s gx gy
    (heapPop st.openSet).1 g0 _ dirs (fun d h => h) _ hrinv
  constructor
  · refine ⟨hrinv2.sfree, hrinv2.gfree, hrinv2.hp, hrinv2.start_g,
      hrinv2.gwf, hrinv2.gnodup, hrinv2.gbound, hrinv2.node_inv, ?_,
      hrinv2.came, hrinv2.dom, hrinv2.goal_open⟩
    intro c hcf v hv
    by_cases hccur : c = ((heapPop st.openSet).1.x,
        (heapPop st.openSet).1.y)
    · subst hccur
      right
      intro b hb
      have hveq : g0 = v :=
        Option.some.inj (hrinv2.cur_g.symm.trans hv)
      obtain ⟨d, hd, he1, he2, hcost, hdiag⟩ := validStep_dir p _ b hb
      dsimp only at he1 he2
      have hb1 : p.isBlocked ((heapPop st.openSet).1.x + d.dx)
          ((heapPop st.openSet).1.y + d.dy) = false := by
        rw [← he1, ← he2]
        exact hb.2.1
      have hb2 : ¬ (d.diag = true ∧
          (p.isBlocked ((heapPop st.openSet).1.x + d.dx)
            (heapPop st.openSet).1.y = true ∨
          p.isBlocked (heapPop st.openSet).1.x
            ((heapPop st.openSet).1.y + d.dy) = true)) := by
        rintro ⟨hdg, hbl⟩
        obtain ⟨hne1, hne2⟩ := hdiag.mp hdg
        obtain ⟨hcf1, hcf2⟩ := hb.2.2.2.2.2 ⟨hne1, hne2⟩
        rcases hbl with hbl | hbl
        · rw [← he1] at hbl
          have hcf1b : p.isBlocked b.1 (heapPop st.openSet).1.y =
            false := hcf1
          rw [hcf1b] at hbl
          cases hbl
        · rw [← he2] at hbl
          have hcf2b : p.isBlocked (heapPop st.openSet).1.x b.2 =
            false := hcf2
          rw [hcf2b] at hbl
          cases hbl
      obtain ⟨vb, hvb, hvble⟩ := hbound2 d hd hb1 hb2
      refine ⟨vb, ?_, ?_⟩
      · show (relaxAll p gx gy (heapPop st.openSet).1
            { openSet := (heapPop st.openSet).2, gScore := st.gScore, cameFrom := st.cameFrom }).gScore.lookup
            (key p b.1 b.2) = some vb
        rw [he1, he2]
        exact hvb
      · rw [← hcost, ← hveq]
        exact hvble
    · exact hrinv2.pexc c hcf hccur v hv
  · have hfb := hrinv2.fbound
    have hphi2 : phi p (relaxAll p gx gy (heapPop st.openSet).1
        { openSet := (heapPop st.openSet).2, gScore := st.gScore, cameFrom := st.cameFrom }) ≤
        phi p { openSet := (heapPop st.openSet).2, gScore := st.gScore, cameFrom := st.cameFrom } := by
      unfold phi relaxAll
      exact hfb
    omega

/-- Frontier-cover lemma: along any valid route out of a scored cell,
either the endpoint is already scored at no more than the route's cost,
or some open node sits on the route with an `f`-value bounded through
the octile heuristic. -/
theorem cover (p : Pathfinder) (s : ℤ × ℤ) (gx gy : ℤ) (st : AState)
    (hinv : AInv p s gx gy st) :
    ∀ (r : List (ℤ × ℤ)) (c t : ℤ × ℤ) (vc : ℕ), r.head? = some c →
      r.getLast? = some t → List.Chain' (ValidStep p) r → p.free c →
      gLook p st c = some vc →
      (∃ vt, gLook p st t = some vt ∧ vt ≤ vc + routeCost r) ∨
      (∃ nd ∈ st.openSet, nd.g + heuristic nd.x nd.y gx gy ≤
        vc + routeCost r + heuristic t.1 t.2 gx gy) := by
  intro r
  induction r with
  | nil => intro c t vc hh; simp at hh
  | cons x xs ih =>
      intro c t vc hh hl hch hcf hvc
      have hxc : x = c := by simpa using hh
      subst hxc
      cases xs with
      | nil =>
          have hxt : x = t := by simpa using hl
          subst hxt
          exact Or.inl ⟨vc, hvc, Nat.le_add_right _ _⟩
      | cons y ys =>
          have hstep : ValidStep p x y := (List.chain'_cons.mp hch).1
          have hch2 := (List.chain'_cons.mp hch).2
          have hl2 : (y :: ys).getLast? = some t := by
            rw [← hl]
            exact List.getLast?_cons_cons.symm
          have hcost : routeCost (x :: y :: ys) =
            stepCost x y + routeCost (y :: ys) := rfl
          rcases hinv.pinv x hcf vc hvc with ⟨nd, hmem, hx, hy, hg⟩ | hall
          · right
            refine ⟨nd, hmem, ?_⟩
            have hcons := consistency_route p gx gy (x :: y :: ys) x t
              rfl hl hch
            rw [hx, hy]
            omega
          · obtain ⟨v2, hv2, hle2⟩ := hall y hstep
            have hyf : p.free y := hstep.2.1
            rcases ih y t v2 rfl hl2 hch2 hyf hv2 with
              ⟨vt, hvt, hvtle⟩ | ⟨nd, hmem, hnd⟩
            · left
              exact ⟨vt, hvt, by rw [hcost]; omega⟩
            · right
              exact ⟨nd, hmem, by rw [hcost]; omega⟩

/-- `reconstructPath` returns a valid route from the start whose cost is
bounded by the cell's `gScore` value, given enough fuel. -/
theorem reconstruct_spec (p : Pathfinder) (s : ℤ × ℤ) (gx gy : ℤ)
    (st : AState) (hinv : AInv p s gx gy st) :
    ∀ (fuel : ℕ) (c : ℤ × ℤ) (vc : ℕ), p.free c →
      gLook p st c = some vc → vc < 100 * fuel →
      ValidRoute p s c (reconstructCells st.cameFrom p fuel c) ∧
      routeCost (reconstructCells st.cameFrom p fuel c) ≤ vc := by
  intro fuel
  induction fuel with
  | zero => intro c vc _ _ h; omega
  | succ fuel ih =>
      intro c vc hcf hvc hlt
      rw [reconstructCells]
      cases hcl : st.cameFrom.lookup (key p c.1 c.2) with
      | none =>
          dsimp only
          rcases hinv.dom c hcf vc hvc with hcs | ⟨pv, hpv⟩
          · subst hcs
            exact ⟨validRoute_single p c hinv.sfree, by simp [routeCost]⟩
          · have hpv2 : st.cameFrom.lookup (key p c.1 c.2) = some pv :=
              hpv
            rw [hcl] at hpv2
            cases hpv2
      | some pv =>
          dsimp only
          obtain ⟨hvs, vc2, vp, hvc2, hvp, hsum⟩ := hinv.came c hcf pv hcl
          have hveq : vc2 = vc := Option.some.inj (hvc2.symm.trans hvc)
          have hpf : p.free pv := hvs.1
          have hstep := stepCost_ge pv c
          have hvp_lt : vp < 100 * fuel := by omega
          obtain ⟨hroute, hcost⟩ := ih pv vp hpf hvp hvp_lt
          constructor
          · exact validRoute_append p s pv c _ hroute hvs
          · have hlast : (reconstructCells st.cameFrom p fuel pv).getLast?
              = some pv := hroute.2.1
            rw [routeCost_append_last pv c _ hlast]
            omega

theorem heapPush_nil (nd : Node) : heapPush [] nd = [nd] := by
  show heapUp [nd] 0 = [nd]
  rw [heapUp]
  rw [if_pos rfl]

theorem ainv_init (p : Pathfinder) (sx sy gx gy : ℤ)
    (hs : p.free (sx, sy)) (hg : p.free (gx, gy))
    (hneq : ¬ (sx = gx ∧ sy = gy)) :
    AInv p (sx, sy) gx gy (initState p sx sy gx gy) := by
  have hkg : key p gx gy ≠ key p sx sy := by
    intro hk
    have := key_inj p (gx, gy) (sx, sy) hg hs hk
    have e1 : gx = sx := congrArg Prod.fst this
    have e2 : gy = sy := congrArg Prod.snd this
    exact hneq ⟨e1.symm, e2.symm⟩
  unfold initState
  dsimp only
  rw [heapPush_nil]
  refine ⟨hs, hg, ?_, ?_, ?_, ?_, ?_, ?_, ?_, ?_, ?_, ?_⟩
  · intro k hk0 hklen
    simp at hklen
    omega
  · exact lookup_cons_self _ _ _
  · intro kk v hv
    by_cases hkk : kk = key p sx sy
    · subst hkk
      exact ⟨(sx, sy), rfl, hs⟩
    · rw [lookup_cons_ne _ _ _ _ hkk] at hv
      simp at hv
  · simp
  · intro kk v hv
    by_cases hkk : kk = key p sx sy
    · subst hkk
      rw [lookup_cons_self] at hv
      have : (0 : ℕ) = v := Option.some.inj hv
      simp
      omega
    · rw [lookup_cons_ne _ _ _ _ hkk] at hv
      simp at hv
  · intro nd hnd
    have hnd2 : nd = { x := sx, y := sy, g := 0, h := heuristic sx sy gx gy, f := 0 + heuristic sx sy gx gy } := by simpa using hnd
    subst hnd2
    exact ⟨hs, rfl, rfl, 0, lookup_cons_self _ _ _, le_refl 0⟩
  · intro c hcf v hv
    have hkk : key p c.1 c.2 = key p sx sy := by
      by_contra hne2
      have hv2 : List.lookup (key p c.1 c.2)
          [(key p sx sy, 0)] = some v := hv
      rw [lookup_cons_ne _ _ _ _ hne2] at hv2
      simp at hv2
    have hcs : c = (sx, sy) := key_inj p c (sx, sy) hcf hs hkk
    subst hcs
    have hv0 : (0 : ℕ) = v := by
      have hv2 : List.lookup (key p sx sy) [(key p sx sy, 0)] = some v :=
        hv
      rw [lookup_cons_self] at hv2
      exact Option.some.inj hv2
    exact Or.inl ⟨{ x := sx, y := sy, g := 0, h := heuristic sx sy gx gy, f := 0 + heuristic sx sy gx gy }, List.mem_singleton.mpr rfl, rfl, rfl, le_of_eq hv0⟩
  · intro c hcf pv hpv
    have hpv2 : List.lookup (key p c.1 c.2) ([] : List (ℤ × (ℤ × ℤ))) =
      some pv := hpv
    simp at hpv2
  · intro c hcf v hv
    have hkk : key p c.1 c.2 = key p sx sy := by
      by_contra hne2
      have hv2 : List.lookup (key p c.1 c.2)
          [(key p sx sy, 0)] = some v := hv
      rw [lookup_cons_ne _ _ _ _ hne2] at hv2
      simp at hv2
    exact Or.inl (key_inj p c (sx, sy) hcf hs hkk)
  · left
    show List.lookup (key p gx gy) [(key p sx sy, 0)] = Option.none
    rw [lookup_cons_ne _ _ _ _ hkg]
    simp

theorem phi_init_lt (p : Pathfinder) (sx sy gx gy : ℤ)
    (hs : p.free (sx, sy)) :
    phi p (initState p sx sy gx gy) < fuelBound p := by
  obtain ⟨a1, a2, a3, a4⟩ := free_bounds p (sx, sy) hs
  have hwh : 1 ≤ p.width * p.height := by
    have hw : 1 ≤ p.width := by omega
    have hh : 1 ≤ p.height := by omega
    exact Nat.mul_pos hw hh
  unfold phi initState fuelBound
  dsimp only
  rw [heapPush_nil]
  simp only [List.length_cons, List.length_nil, List.map_cons,
    List.map_nil, List.sum_cons, List.sum_nil]
  have hWK : p.width * p.height * (141 * (p.width * p.height) + 2) =
      (p.width * p.height - 1) * (141 * (p.width * p.height) + 2) +
      (141 * (p.width * p.height) + 2) := by
    obtain ⟨n, hn⟩ := Nat.exists_eq_add_of_le hwh
    rw [hn]
    rw [show 1 + n - 1 = n from by omega]
    ring
  rw [hWK]
  have hfin : ∀ A K : ℕ, 1 + (0 + 0) + A < A + K + 2 := by
    intro A K
    omega
  exact hfin _ _

/-- Main loop lemma: from any invariant state, with fuel above the
potential, the loop terminates (no fuel exhaustion), a returned route is
valid and optimal, and a no-path answer is correct. -/
theorem astarLoop_spec (p : Pathfinder) (s : ℤ × ℤ) (gx gy : ℤ) :
    ∀ (fuel : ℕ) (st : AState), AInv p s gx gy st → phi p st < fuel →
    ∃ res, astarLoop p gx gy fuel st = some res ∧
      (∀ cells, res = some cells →
        ValidRoute p s (gx, gy) cells ∧
        ∀ r, ValidRoute p s (gx, gy) r → routeCost cells ≤ routeCost r) ∧
      (res = Option.none → ∀ r, ¬ ValidRoute p s (gx, gy) r) := by
  intro fuel
  induction fuel with
  | zero => intro st _ hphi; omega
  | succ fuel ih =>
      intro st hinv hphi
      rw [astarLoop]
      by_cases hemp : st.openSet.isEmpty
      · rw [if_pos hemp]
        refine ⟨Option.none, rfl, ?_, ?_⟩
        · intro cells hc
          cases hc
        · intro _ r hr
          have hopen : st.openSet = [] := List.isEmpty_iff.mp hemp
          obtain ⟨hh, hl, hf, hch⟩ := hr
          rcases cover p s gx gy st hinv r s (gx, gy) 0 hh hl hch hf
            hinv.start_g with ⟨vt, hvt, _⟩ | ⟨nd, hmem, _⟩
          · rcases hinv.goal_open with hnone | ⟨nd, hmem, _, _⟩
            · cases hvt.symm.trans hnone
            · rw [hopen] at hmem
              simp at hmem
          · rw [hopen] at hmem
            simp at hmem
      · rw [if_neg hemp]
        dsimp only
        have hne : st.openSet ≠ [] := fun h => hemp (by rw [h]; rfl)
        by_cases hgoal : (heapPop st.openSet).1.x = gx ∧
          (heapPop st.openSet).1.y = gy
        · rw [if_pos hgoal]
          have hps := heapPop_spec st.openSet hne hinv.hp
          have hcur : (heapPop st.openSet).1 ∈ st.openSet :=
            (hps.2.1.mem_iff).mp (List.mem_cons_self _ _)
          obtain ⟨hfree, hh2, hf2, g0, hg0, hg0le⟩ :=
            hinv.node_inv _ hcur
          have hcell : ((heapPop st.openSet).1.x,
              (heapPop st.openSet).1.y) = (gx, gy) := by
            rw [hgoal.1, hgoal.2]
          have hglen := gmap_length_le p st.gScore hinv.gwf hinv.gnodup
          have hbound := hinv.gbound _ g0 hg0
          have hfuel : g0 < 100 * (141 * (p.width * p.height) + 2) := by
            omega
          obtain ⟨hroute, hcost⟩ := reconstruct_spec p s gx gy st hinv
            (141 * (p.width * p.height) + 2)
            ((heapPop st.openSet).1.x, (heapPop st.openSet).1.y)
            g0 hfree hg0 hfuel
          rw [hcell] at hroute hcost hg0
          refine ⟨_, rfl, ?_, ?_⟩
          · intro cells hc
            have hcells := Option.some.inj hc
            constructor
            · rw [← hcells, hcell]
              exact hroute
            · intro r hr
              obtain ⟨hh3, hl3, hf3, hch3⟩ := hr
              have hcov := cover p s gx gy st hinv r s (gx, gy) 0 hh3
                hl3 hch3 hf3 hinv.start_g
              have hgle : g0 ≤ routeCost r := by
                rcases hcov with ⟨vt, hvt, hvtle⟩ | ⟨nd, hmem, hnd⟩
                · have hveq : vt = g0 :=
                    Option.some.inj (hvt.symm.trans hg0)
                  omega
                · have hmin := heapPop_min st.openSet hne hinv.hp nd hmem
                  obtain ⟨hfree2, hh4, hf4, v2, hv2, hv2le⟩ :=
                    hinv.node_inv nd hmem
                  have hh0 : heuristic (heapPop st.openSet).1.x
                      (heapPop st.openSet).1.y gx gy = 0 := by
                    rw [hgoal.1, hgoal.2]
                    exact heuristic_self gx gy
                  have e1 : nd.f = nd.g + heuristic nd.x nd.y gx gy := by
                    rw [hf4, hh4]
                  have e2 : (heapPop st.openSet).1.f =
                      (heapPop st.openSet).1.g := by
                    rw [hf2, hh2, hh0]
                    omega
                  have ht0 : heuristic (gx, gy).1 (gx, gy).2 gx gy = 0 :=
                    heuristic_self gx gy
                  rw [ht0] at hnd
                  omega
              rw [← hcells, hcell]
              exact le_trans hcost hgle
          · intro hcnone
            cases hcnone
        · rw [if_neg hgoal]
          obtain ⟨hinv2, hphi2⟩ := relaxAll_ainv p s gx gy st hinv hne
            hgoal
          exact ih _ hinv2 (by omega)

/-- `FindPath` at the cell level, both directions: any returned route is
valid and optimal, and a `nil` answer means no valid route exists. -/
theorem findPathCells_spec (p : Pathfinder) (sx sy gx gy : ℤ)
    (hs : p.isBlocked sx sy = false) (hg : p.isBlocked gx gy = false) :
    (∀ cells, p.findPathCells sx sy gx gy = some cells →
      ValidRoute p (sx, sy) (gx, gy) cells ∧
      ∀ r, ValidRoute p (sx, sy) (gx, gy) r →
        routeCost cells ≤ routeCost r) ∧
    (p.findPathCells sx sy gx gy = Option.none →
      ∀ r, ¬ ValidRoute p (sx, sy) (gx, gy) r) := by
  unfold Pathfinder.findPathCells
  rw [if_neg (show ¬ ((p.isBlocked sx sy || p.isBlocked gx gy) = true)
    from by simp [hs, hg])]
  by_cases heq : sx = gx ∧ sy = gy
  · rw [if_pos heq]
    constructor
    · intro cells hc
      have hcells := Option.some.inj hc
      constructor
      · rw [← hcells]
        obtain ⟨e1, e2⟩ := heq
        subst e1
        subst e2
        exact validRoute_single p (sx, sy) hs
      · intro r hr
        rw [← hcells]
        simp [routeCost]
    · intro hnone
      cases hnone
  · rw [if_neg heq]
    have hfree_s : p.free (sx, sy) := hs
    have hfree_g : p.free (gx, gy) := hg
    obtain ⟨res, hres, hsome, hnone⟩ := astarLoop_spec p (sx, sy) gx gy
      (fuelBound p) (initState p sx sy gx gy)
      (ainv_init p sx sy gx gy hfree_s hfree_g heq)
      (phi_init_lt p sx sy gx gy hfree_s)
    rw [hres]
    dsimp only
    exact ⟨hsome, hnone⟩

/-- C1: for in-bounds, unblocked, connected start and goal cells,
`FindPath` returns a cell route that is valid under the 8-connected
corner-respecting cost model and whose total cost (1.0 per cardinal
step, 1.41 per diagonal step) is minimal: no valid route is cheaper.
The world-level `FindPath` result is exactly this route, converted and
simplified. -/
theorem C1_astar_optimal (p : Pathfinder) (sx sy gx gy : ℤ)
    (hs : p.isBlocked sx sy = false) (hg : p.isBlocked gx gy = false)
    (r0 : List (ℤ × ℤ)) (hr0 : ValidRoute p (sx, sy) (gx, gy) r0) :
    ∃ cells, p.findPathCells sx sy gx gy = some cells ∧
      ValidRoute p (sx, sy) (gx, gy) cells ∧
      (∀ r, ValidRoute p (sx, sy) (gx, gy) r →
        routeCostQ cells ≤ routeCostQ r) ∧
      (∀ start goal : ℚ × ℚ, p.worldToGrid start = (sx, sy) →
        p.worldToGrid goal = (gx, gy) →
        p.findPath start goal =
          some (simplifyPath (cells.map p.gridToWorld))) := by
  cases hout : p.findPathCells sx sy gx gy with
  | none =>
      exact absurd hr0
        ((findPathCells_spec p sx sy gx gy hs hg).2 hout r0)
  | some cells =>
      obtain ⟨hv, hopt⟩ :=
        (findPathCells_spec p sx sy gx gy hs hg).1 cells hout
      refine ⟨cells, rfl, hv, ?_, ?_⟩
      · intro r hr
        exact routeCostQ_mono _ _ (hopt r hr)
      · intro start goal h1 h2
        unfold Pathfinder.findPath
        dsimp only
        rw [h1, h2]
        dsimp only
        rw [hout]
        rfl

/-- C2: every cell route returned by `FindPath` is `ValidStep`-chained;
in particular every diagonal step in it has both flanking cardinal
cells unblocked (no corner cutting). -/
theorem C2_no_corner_cut (p : Pathfinder) (sx sy gx gy : ℤ)
    (cells : List (ℤ × ℤ))
    (h : p.findPathCells sx sy gx gy = some cells) :
    List.Chain' (ValidStep p) cells ∧
    ∀ pr ∈ cells.zip cells.tail,
      pr.2.1 ≠ pr.1.1 → pr.2.2 ≠ pr.1.2 →
      p.isBlocked pr.2.1 pr.1.2 = false ∧
      p.isBlocked pr.1.1 pr.2.2 = false := by
  unfold Pathfinder.findPathCells at h
  by_cases hb : (p.isBlocked sx sy || p.isBlocked gx gy) = true
  · rw [if_pos hb] at h
    cases h
  · rw [if_neg hb] at h
    have hs : p.isBlocked sx sy = false := by
      cases hbs : p.isBlocked sx sy
      · rfl
      · rw [hbs] at hb
        simp at hb
    have hg : p.isBlocked gx gy = false := by
      cases hbg : p.isBlocked gx gy
      · rfl
      · rw [hbg] at hb
        simp at hb
    by_cases heq : sx = gx ∧ sy = gy
    · rw [if_pos heq] at h
      have hcells := Option.some.inj h
      rw [← hcells]
      constructor
      · simp
      · intro pr hpr
        simp at hpr
    · rw [if_neg heq] at h
      obtain ⟨res, hres, hsome, hnone⟩ := astarLoop_spec p (sx, sy)
        gx gy (fuelBound p) (initState p sx sy gx gy)
        (ainv_init p sx sy gx gy hs hg heq)
        (phi_init_lt p sx sy gx gy hs)
      rw [hres] at h
      dsimp only at h
      obtain ⟨hv, _⟩ := hsome cells h
      obtain ⟨hh, hl, hf, hch⟩ := hv
      refine ⟨hch, ?_⟩
      intro pr hpr h1 h2
      have hstep := chain_zip (ValidStep p) cells hch pr hpr
      obtain ⟨_, _, _, _, _, hcorner⟩ := hstep
      exact hcorner ⟨h1, h2⟩

/-- C3: if the start or goal cell is blocked or out of bounds, or no
valid route of unblocked cells connects them, `FindPath` returns the
no-path sentinel `nil` — at the cell level and at the world level; the
embedded search is a total function, so it cannot panic. -/
theorem C3_no_path_sentinel (p : Pathfinder) (sx sy gx gy : ℤ)
    (h : p.isBlocked sx sy = true ∨ p.isBlocked gx gy = true ∨
      ∀ r, ¬ ValidRoute p (sx, sy) (gx, gy) r) :
    p.findPathCells sx sy gx gy = Option.none ∧
    ∀ start goal : ℚ × ℚ, p.worldToGrid start = (sx, sy) →
      p.worldToGrid goal = (gx, gy) →
      p.findPath start goal = Option.none := by
  have hmain : p.findPathCells sx sy gx gy = Option.none := by
    cases hbs : p.isBlocked sx sy with
    | true =>
        unfold Pathfinder.findPathCells
        rw [if_pos (by simp [hbs])]
    | false =>
        cases hbg : p.isBlocked gx gy with
        | true =>
            unfold Pathfinder.findPathCells
            rw [if_pos (by simp [hbg])]
        | false =>
            rcases h with hs | hg | hdisc
            · rw [hbs] at hs
              cases hs
            · rw [hbg] at hg
              cases hg
            · unfold Pathfinder.findPathCells
              rw [if_neg (by simp [hbs, hbg])]
              by_cases heq : sx = gx ∧ sy = gy
              · exfalso
                apply hdisc [(sx, sy)]
                obtain ⟨e1, e2⟩ := heq
                have hvr := validRoute_single p (sx, sy) hbs
                refine ⟨hvr.1, ?_, hvr.2.2.1, hvr.2.2.2⟩
                rw [← e1, ← e2]
                rfl
              · rw [if_neg heq]
                obtain ⟨res, hres, hsome, hnone⟩ := astarLoop_spec p
                  (sx, sy) gx gy (fuelBound p)
                  (initState p sx sy gx gy)
                  (ainv_init p sx sy gx gy hbs hbg heq)
                  (phi_init_lt p sx sy gx gy hbs)
                rw [hres]
                dsimp only
                cases res with
                | none => rfl
                | some cells =>
                    exact absurd (hsome cells rfl).1 (hdisc cells)
  refine ⟨hmain, ?_⟩
  intro start goal h1 h2
  unfold Pathfinder.findPath
  dsimp only
  rw [h1, h2]
  dsimp only
  rw [hmain]
  rfl

theorem C1_astar_optimal_witness :
    ∃ cells, (Pathfinder.new 3 3 1).findPathCells 0 0 2 2 =
        some cells ∧
      ValidRoute (Pathfinder.new 3 3 1) (0, 0) (2, 2) cells ∧
      (∀ r, ValidRoute (Pathfinder.new 3 3 1) (0, 0) (2, 2) r →
        routeCostQ cells ≤ routeCostQ r) ∧
      (∀ start goal : ℚ × ℚ,
        (Pathfinder.new 3 3 1).worldToGrid start = (0, 0) →
        (Pathfinder.new 3 3 1).worldToGrid goal = (2, 2) →
        (Pathfinder.new 3 3 1).findPath start goal =
          some (simplifyPath
            (cells.map (Pathfinder.new 3 3 1).gridToWorld))) :=
  C1_astar_optimal (Pathfinder.new 3 3 1) 0 0 2 2 (by decide) (by decide)
    [(0, 0), (1, 1), (2, 2)]
    ⟨rfl, rfl, by decide,
      List.Chain.cons (by decide) (List.Chain.cons (by decide)
        List.Chain.nil)⟩

theorem C2_no_corner_cut_witness :
    List.Chain' (ValidStep (Pathfinder.new 2 2 1))
      [((0 : ℤ), (0 : ℤ))] ∧
    ∀ pr ∈ ([((0 : ℤ), (0 : ℤ))]).zip ([((0 : ℤ), (0 : ℤ))]).tail,
      pr.2.1 ≠ pr.1.1 → pr.2.2 ≠ pr.1.2 →
      (Pathfinder.new 2 2 1).isBlocked pr.2.1 pr.1.2 = false ∧
      (Pathfinder.new 2 2 1).isBlocked pr.1.1 pr.2.2 = false :=
  C2_no_corner_cut (Pathfinder.new 2 2 1) 0 0 0 0 [(0, 0)] (by decide)

theorem C3_no_path_sentinel_witness :
    ((Pathfinder.new 2 2 1).setBlocked 0 0 true).findPathCells 0 0 1 1 =
      Option.none ∧
    ∀ start goal : ℚ × ℚ,
      ((Pathfinder.new 2 2 1).setBlocked 0 0 true).worldToGrid start =
        (0, 0) →
      ((Pathfinder.new 2 2 1).setBlocked 0 0 true).worldToGrid goal =
        (1, 1) →
      ((Pathfinder.new 2 2 1).setBlocked 0 0 true).findPath start goal =
        Option.none :=
  C3_no_path_sentinel ((Pathfinder.new 2 2 1).setBlocked 0 0 true)
    0 0 1 1 (Or.inl (by decide))

end HerzogDrei
